import Mathlib

/-!
# lazymove / lazycopy: a shallow embedding of `lazymove.c`

The program copies (or, under the name `lazymove`, moves) a file onto a
destination, and leaves the destination alone when a bounded prefix of
the two files already agrees.

## Modelling choices

* A byte is a natural number; the marker byte `'.'` is `46`, NUL is `0`.
* The file system is a flat map from file names to nodes.  A node is a
  regular file (permission bits and content) or a directory, which stands
  for every node that is not a regular file.  A path string is not a file
  name: every system call first resolves the path it is given, by the
  function `World.resolve` of the world, and two path strings that resolve
  to one name (`./f` and `f`, say) are one file.  The resolution is fixed
  during a run and two names are two files: hard links and symbolic links
  are outside the model, and a path with `~` appended never resolves to
  the name the path itself resolves to.  Devices and FIFOs are outside the
  model, and so are parent directories: every name can be created.
* The process has the access rights for every system call it makes, a
  `read` of a regular file returns all the bytes asked for that the file
  has, and a `write` writes all of its bytes.  The failures that remain
  are those the file system state decides: a missing path and a node of
  the wrong kind.
* A file descriptor is the name of the file it was opened on (the program
  closes each descriptor before it renames or removes anything).
* `err` and `errx` end the process: a computation yields either a value
  or an exit status, and in both cases the world it leaves behind.
* The world carries a ghost trace of the calls of `load`, `output` and
  `reset`, so that the decision of `lazy` (Skip, Write, Truncate) can be
  read off a run.
* A buffer is the list of its initialised bytes.  Where the C code passes
  a pointer to an array, the model passes the size the array was declared
  with, and `read` and `snprintf` compare each access with it; `memcmp`
  and `write`, which read a buffer, compare the length they are given with
  the initialised bytes.  An access outside sets the ghost flag
  `World.overrun`; the run then goes on with the values it has without
  the check, so the flag changes no result.
-/

namespace Lazymove

/-! ## Data model -/

abbrev Byte := Nat

/-- A node of the file system. -/
inductive Node where
  | reg (mode : Nat) (data : List Byte)
  | dir (mode : Nat)
  deriving DecidableEq

/-- The file system: the node of each file name, if there is one. -/
abbrev FS := String → Option Node

/-- Function update of a file system at one name. -/
def FS.set (fs : FS) (name : String) (v : Option Node) : FS :=
  fun p => if p = name then v else fs p

/-- Calls of the program's own functions, recorded in order. -/
inductive Call where
  | load (fn : String) (m : Int) (ellipsis : Bool)
  | output (bf : List Byte) (n : Int) (ofn : String) (mode : Nat)
  | reset (ofn : String) (mode : Nat)
  deriving DecidableEq

/-- The state a run acts on. -/
structure World where
  fs : FS
  umask : Nat
  trace : List Call
  /-- The name of the file that a path string resolves to. -/
  resolve : String → String
  /-- A path with `~` appended names another file than the path. -/
  resolve_tilde : ∀ p, resolve (p ++ "~") ≠ resolve p
  /-- Set by an access that falls outside its buffer. -/
  overrun : Bool

/-- The result of a computation: a returned value, or the status the
process exited with, and the world left behind. -/
inductive Res (α : Type) where
  | ret (a : α) (w : World)
  | exit (status : Int) (w : World)

/-- The world a computation leaves behind. -/
def Res.world {α : Type} : Res α → World
  | .ret _ w => w
  | .exit _ w => w

/-- Computations over the world that may end the process. -/
def M (α : Type) : Type := World → Res α

def M.pure {α : Type} (a : α) : M α := fun w => .ret a w

def M.bind {α β : Type} (x : M α) (f : α → M β) : M β := fun w =>
  match x w with
  | .ret a w1 => f a w1
  | .exit s w1 => .exit s w1

instance : Monad M where
  pure := M.pure
  bind := M.bind

/-! ## Constants of the system headers -/

def EX_USAGE : Int := 64
def EX_NOINPUT : Int := 66
def EX_OSERR : Int := 71
def ENOENT : Int := 2
def ERANGE : Int := 34
def ACCESSPERMS : Nat := 0o777

/-- The bytes `snprintf(_, 4, "...")` stores: the marker and the NUL. -/
def ELLIPSIS : List Byte := [46, 46, 46, 0]

/-! ## System calls -/

/-- Both `err` and `errx`: the process exits with `status`. -/
def err {α : Type} (status : Int) : M α := fun w => .exit status w

/-- Appends a call to the ghost trace. -/
def record (c : Call) : M Unit := fun w => .ret () { w with trace := w.trace ++ [c] }

structure Stat where
  isreg : Bool
  st_mode : Nat
  st_size : Int

/-- The call `stat(path, &st)`: the stat record, or the value of `errno`. -/
def stat (path : String) : M (Except Int Stat) := fun w =>
  match w.fs (w.resolve path) with
  | none => .ret (.error ENOENT) w
  | some (.reg mode data) =>
      .ret (.ok { isreg := true, st_mode := mode, st_size := data.length }) w
  | some (.dir mode) => .ret (.ok { isreg := false, st_mode := mode, st_size := 0 }) w

/-- The call `open(path, O_RDONLY)`: a descriptor, or `none` for `-1`. -/
def open_rdonly (path : String) : M (Option String) := fun w =>
  match w.fs (w.resolve path) with
  | none => .ret none w
  | some _ => .ret (some (w.resolve path)) w

/-- Notes an access to a buffer: the flag `overrun` is set unless the
access is inside. -/
def check (inside : Prop) [Decidable inside] : M Unit := fun w =>
  if inside then .ret () w else .ret () { w with overrun := true }

/-- The call `read(fd, bf, m)` into an array `bf` of `size` bytes: the
bytes stored, whose number is the value returned, or `none` for `-1`. -/
def read (fd : String) (size : Nat) (m : Int) : M (Option (List Byte)) := fun w =>
  match w.fs fd with
  | some (.reg _ data) =>
      (do check ((data.take m.toNat).length ≤ size); pure (some (data.take m.toNat))) w
  | _ => .ret none w

/-- The mode a new file gets: `mode & ~umask`. -/
def creatMode (mode umask : Nat) : Nat := mode - (mode &&& umask)

/-- The call `open(path, O_WRONLY|O_CREAT|O_TRUNC, mode)`.  An existing
regular file is emptied and keeps its mode; a missing one is created. -/
def open_creat_trunc (path : String) (mode : Nat) : M (Option String) := fun w =>
  match w.fs (w.resolve path) with
  | none =>
      .ret (some (w.resolve path))
        { w with fs := w.fs.set (w.resolve path) (some (.reg (creatMode mode w.umask) [])) }
  | some (.reg md _) =>
      .ret (some (w.resolve path)) { w with fs := w.fs.set (w.resolve path) (some (.reg md [])) }
  | some (.dir _) => .ret none w

/-- The call `write(fd, bf, n)` on a descriptor whose offset is the end
of the file: the number of bytes written, or `-1`.  It reads `n` bytes of
the buffer. -/
def write (fd : String) (bf : List Byte) (n : Int) : M Int := fun w =>
  match w.fs fd with
  | some (.reg md data) =>
      if 0 ≤ n ∧ n.toNat ≤ bf.length then
        .ret n { w with fs := w.fs.set fd (some (.reg md (data ++ bf.take n.toNat))) }
      else
        .ret n { w with
          fs := w.fs.set fd (some (.reg md (data ++ bf.take n.toNat)))
          overrun := true }
  | _ => .ret (-1) w

/-- The call `close(fd)`. -/
def close (_fd : String) : M Unit := fun w => .ret () w

/-- The call `rename(old, new)`: `0`, or `-1`. -/
def rename (old new : String) : M Int := fun w =>
  match w.fs (w.resolve old) with
  | none => .ret (-1) w
  | some node =>
    match w.fs (w.resolve new) with
    | some (.dir _) => .ret (-1) w
    | _ =>
      if w.resolve old = w.resolve new then .ret 0 w
      else .ret 0 { w with fs := (w.fs.set (w.resolve new) (some node)).set (w.resolve old) none }

/-- The call `unlink(path)`: `0`, or `-1`. -/
def unlink (path : String) : M Int := fun w =>
  match w.fs (w.resolve path) with
  | some (.reg _ _) => .ret 0 { w with fs := w.fs.set (w.resolve path) none }
  | _ => .ret (-1) w

/-- The value `memcmp(s1, s2, n)` returns on initialised bytes. -/
def memcmp : List Byte → List Byte → Nat → Int
  | a :: s1, b :: s2, n + 1 => if a = b then memcmp s1 s2 n else (a : Int) - (b : Int)
  | _, _, _ => 0

/-- The call `memcmp(s1, s2, n)` on two buffers: it reads `n` bytes of
each. -/
def memcmp_call (s1 s2 : List Byte) (n : Int) : M Int := do
  check (0 ≤ n ∧ n.toNat ≤ s1.length ∧ n.toNat ≤ s2.length)
  pure (memcmp s1 s2 n.toNat)

/-- Stores `bytes` into the buffer `bf` from offset `off` on. -/
def store (bf : List Byte) (off : Nat) (bytes : List Byte) : List Byte :=
  bf.take off ++ bytes ++ bf.drop (off + bytes.length)

/-- The call `snprintf(bf + off, 4, "...")` on an array of `size` bytes
holding `bf`: the buffer afterwards. -/
def snprintf (bf : List Byte) (size : Nat) (off : Int) : M (List Byte) := do
  check (0 ≤ off ∧ off.toNat + ELLIPSIS.length ≤ size)
  pure (store bf off.toNat ELLIPSIS)

/-! ## The program -/

/-- The function `load`, for an array `bf` of `size` bytes: the buffer it
fills and the length it returns. -/
def load (fn : String) (size : Nat) (m : Int) (ellipsis : Bool) : M (List Byte × Int) := do
  record (.load fn m ellipsis)
  let is ← open_rdonly fn
  match is with
  | none => err EX_OSERR
  | some is =>
    let r ← read is size m
    match r with
    | none => err EX_OSERR
    | some bf =>
      let n : Int := bf.length
      close is
      if ellipsis && n == m then
        let bf ← snprintf bf size (m - 4)
        pure (bf, n - 1)
      else
        pure (bf, n)

/-- The function `output`. -/
def output (bf : List Byte) (n : Int) (ofn : String) (mode : Nat) : M Int := do
  record (.output bf n ofn mode)
  let xfn := ofn ++ "~"
  let os ← open_creat_trunc xfn mode
  match os with
  | none => err EX_OSERR
  | some os =>
    let n ← write os bf n
    if n < 0 then err EX_OSERR
    else
      close os
      let res ← rename xfn ofn
      if res < 0 then err EX_OSERR
      else pure 0

/-- The function `reset`. -/
def reset (ofn : String) (mode : Nat) : M Int := do
  record (.reset ofn mode)
  let os ← open_creat_trunc ofn mode
  match os with
  | none => err EX_OSERR
  | some os =>
    close os
    pure 0

/-- The second `stat` of `lazy`: the size of the destination, `-1` when
it does not exist. -/
def lazy_o_size (ofn : String) : M Int := do
  let r ← stat ofn
  match r with
  | .error errno =>
    if errno != ENOENT then err EX_NOINPUT
    else pure (-1)
  | .ok st =>
    if !st.isreg then err EX_NOINPUT
    else pure st.st_size

/-- The function `lazy`, with the global `BF_SIZE` as a parameter.  The
array `ibf` has `BF_SIZE + 1` bytes and `obf` has `BF_SIZE`. -/
def lazy (BF_SIZE : Int) (ifn ofn : String) : M Int := do
  let r ← stat ifn
  match r with
  | .error _ => err EX_NOINPUT
  | .ok st =>
    if !st.isreg then err EX_NOINPUT
    else
      let i_size := st.st_size
      let i_mode := st.st_mode &&& ACCESSPERMS
      let o_size ← lazy_o_size ofn
      if i_size > 0 then
        let (ibf, xi) ← load ifn (BF_SIZE + 1).toNat (BF_SIZE + 1) true
        if o_size == i_size || (o_size == BF_SIZE && i_size > BF_SIZE) then
          let (obf, xo) ← load ofn BF_SIZE.toNat BF_SIZE false
          if xi != xo then output ibf xi ofn i_mode
          else
            let c ← memcmp_call ibf obf xi
            if c != 0 then output ibf xi ofn i_mode
            else pure 0
        else output ibf xi ofn i_mode
      else
        if o_size != 0 then reset ofn i_mode
        else pure 0

/-! ## Option parsing and `main`

The library calls `basename` and `getopt_long` are taken by their
results: `self` is `basename(av[0])`, `opts` lists the option characters
`getopt_long` returns in turn, each with its `optarg`, and `args` are
the operands left at `av[optind]` and after.  The value `noconv` is the
`errno` that `strtoul` stores when it converts no digit at all (`0` where
the library leaves `errno` alone, `EINVAL` elsewhere). -/

def ULONG_MAX : Nat := 2 ^ 64 - 1

/-- The function `isspace` in the C locale. -/
def isspace (c : Char) : Bool := c.toNat == 32 || (9 ≤ c.toNat && c.toNat ≤ 13)

/-- The value of a character as a digit, letters standing for ten and up. -/
def digitOf (c : Char) : Option Nat :=
  if 48 ≤ c.toNat ∧ c.toNat ≤ 57 then some (c.toNat - 48)
  else if 97 ≤ c.toNat ∧ c.toNat ≤ 122 then some (c.toNat - 97 + 10)
  else if 65 ≤ c.toNat ∧ c.toNat ≤ 90 then some (c.toNat - 65 + 10)
  else none

/-- The digits of `base` at the head of the text, accumulated onto `acc`;
the flag tells whether a digit was read. -/
def strtoul_digits (base : Nat) : List Char → Nat → Bool → Nat × Bool
  | [], acc, any => (acc, any)
  | c :: cs, acc, any =>
    match digitOf c with
    | some d => if d < base then strtoul_digits base cs (acc * base + d) true else (acc, any)
    | none => (acc, any)

/-- Whether the text starts with `0x` or `0X` and a hexadecimal digit. -/
def hexPrefix : List Char → Bool
  | z :: x :: d :: _ =>
    z.toNat == 48 && (x.toNat == 120 || x.toNat == 88) &&
      (match digitOf d with
       | some v => decide (v < 16)
       | none => false)
  | _ => false

/-- The call `strtoul(text, NULL, base)` for base 10 or 16: the value
returned and the `errno` it leaves, `0` when it stores none. -/
def strtoul (noconv : Int) (text : List Char) (base : Nat) : Nat × Int :=
  let s := text.dropWhile isspace
  let neg := s.head? == some (Char.ofNat 45)
  let s := if s.head? == some (Char.ofNat 45) || s.head? == some (Char.ofNat 43) then s.tail else s
  let s := if base == 16 && hexPrefix s then s.drop 2 else s
  let (v, any) := strtoul_digits base s 0 false
  if !any then (0, noconv)
  else if v > ULONG_MAX then (ULONG_MAX, ERANGE)
  else if neg then ((2 ^ 64 - v) % 2 ^ 64, 0)
  else (v, 0)

/-- The conversion of an `unsigned long` to `int`. -/
def toInt32 (v : Nat) : Int :=
  if v % 2 ^ 32 < 2 ^ 31 then (v % 2 ^ 32 : Nat) else ((v % 2 ^ 32 : Nat) : Int) - 2 ^ 32

/-- The function `valueof`: the value returned and `errno` afterwards. -/
def valueof (noconv : Int) (text : String) : Int × Int :=
  if "0x".toList.isPrefixOf text.toList then
    let r := strtoul noconv (text.toList.drop 2) 16
    (toInt32 r.1, r.2)
  else
    let r := strtoul noconv text.toList 10
    (toInt32 r.1, r.2)

/-- The function `usage`. -/
def usage {α : Type} : M α := err EX_USAGE

/-- The option loop of `main`: the value of `BF_SIZE` after it. -/
def main_getopt (noconv : Int) : List (Char × Option String) → Int → M Int
  | [], BF_SIZE => pure BF_SIZE
  | (ch, optarg) :: rest, _ =>
    if ch.toNat == 98 then
      match optarg with
      | none => usage
      | some text =>
        let r := valueof noconv text
        if r.2 != 0 then usage
        else main_getopt noconv rest r.1
    else usage

/-- The function `main`. -/
def main (noconv : Int) (self : String) (opts : List (Char × Option String))
    (args : List String) : M Int := do
  let BF_SIZE ← main_getopt noconv opts 4096
  match args with
  | [ifn, ofn] =>
    if BF_SIZE < 4 || BF_SIZE > 0x20000 then err EX_USAGE
    else
      let res ← lazy BF_SIZE ifn ofn
      if self == "lazymove" then
        let r ← unlink ifn
        if r < 0 then err EX_OSERR
        else pure res
      else pure res
  | _ => usage

/-! ## Reading the decision off a run -/

/-- What a run of `lazy` did to the destination. -/
inductive Decision where
  | Skip
  | Write
  | Truncate
  deriving DecidableEq

def Call.isOutput : Call → Bool
  | .output _ _ _ _ => true
  | _ => false

def Call.isReset : Call → Bool
  | .reset _ _ => true
  | _ => false

/-- The decision a list of calls shows: Write when `output` was called,
Truncate when `reset` was, Skip when neither was. -/
def decisionOf (calls : List Call) : Decision :=
  if calls.any Call.isOutput then .Write
  else if calls.any Call.isReset then .Truncate
  else .Skip

/-- The calls a computation started in `w` has added to the trace. -/
def newCalls {α : Type} (w : World) (r : Res α) : List Call :=
  r.world.trace.drop w.trace.length

/-- The content of the regular file of the name `name`, if there is one. -/
def contentOf (fs : FS) (name : String) : Option (List Byte) :=
  match fs name with
  | some (.reg _ data) => some data
  | _ => none

/-- The mode of the file that `output` moves onto the destination: that of
a regular file already at the temporary path, else the mode `open`
creates. -/
def tmpMode (w : World) (ofn : String) (mode : Nat) : Nat :=
  match w.fs (w.resolve (ofn ++ "~")) with
  | some (.reg md _) => md
  | _ => creatMode mode w.umask

/-- The destination `dst` already holds what `lazy` leaves there for a
source of content `idata`: the source itself when it has at most `BF`
bytes, else a file as long as the source or of `BF` bytes whose first
`BF` bytes are the first `BF - 3` of the source and the marker. -/
def UpToDate (BF : Nat) (idata : List Byte) (dst : Option Node) : Prop :=
  if idata.length ≤ BF then ∃ md, dst = some (.reg md idata)
  else ∃ md odata, dst = some (.reg md odata) ∧
    (odata.length = idata.length ∨ odata.length = BF) ∧
    odata.take BF = idata.take (BF - 3) ++ [46, 46, 46]

/-- The bytes `lazy` writes for a source of content `idata`: the source
itself when it has at most `BF` bytes, else its first `BF - 3` bytes and
the marker. -/
def written (BF : Nat) (idata : List Byte) : List Byte :=
  if idata.length ≤ BF then idata else idata.take (BF - 3) ++ [46, 46, 46]

/-- The value a computation returns, if it returns. -/
def Res.val? {α : Type} : Res α → Option α
  | .ret a _ => some a
  | .exit _ _ => none

/-- The status a computation exits with, if it exits. -/
def Res.status? {α : Type} : Res α → Option Int
  | .ret _ _ => none
  | .exit s _ => some s

/-- A result `r` of `load`, after a `read` of `nread` bytes, is
partial-marked: the length reported is one less than the number of bytes
read, and the last three bytes within that length are the marker. -/
def PartialMarked (nread : Int) (r : List Byte × Int) : Prop :=
  r.2 = nread - 1 ∧ (r.1.take r.2.toNat).drop (r.2.toNat - 3) = [46, 46, 46]

/-- A world holding the listed files and nothing else, with the usual
umask and an empty trace, in which every path is the name of its file. -/
def World.ofList (files : List (String × Node)) : World :=
  { fs := fun p => files.lookup p, umask := 0o022, trace := [],
    resolve := fun p => p,
    resolve_tilde := fun p h => by
      have h1 := congrArg String.length (show p ++ "~" = p from h)
      rw [String.length_append] at h1
      have h2 : "~".length = 1 := by decide
      omega,
    overrun := false }

/-- Whether a node is there and is not a regular file. -/
def isDir : Option Node → Bool
  | some (.dir _) => true
  | _ => false

/-- The text given to `-b` is refused: `strtoul` left an error in `errno`,
or the cutoff `valueof` returns is not in the range that `main` admits. -/
def CutoffRejected (noconv : Int) (text : String) : Prop :=
  (valueof noconv text).2 ≠ 0 ∨ (valueof noconv text).1 < 4 ∨ 0x20000 < (valueof noconv text).1

/-! ## Example worlds -/

/-- A source of five bytes, no destination. -/
def ex_five : World := World.ofList [("s", .reg 0o644 [1, 2, 3, 4, 5])]

/-- A source of exactly four bytes, no destination. -/
def ex_four : World := World.ofList [("s", .reg 0o644 [1, 2, 3, 4])]

/-- A source of 5000 zero bytes, no destination. -/
def ex_zeros : World := World.ofList [("s", .reg 0o644 (List.replicate 5000 0))]

/-- Two files of ten bytes that differ at offset 9 only. -/
def ex_differ : World :=
  World.ofList [("s", .reg 0o644 [7, 7, 7, 7, 7, 7, 7, 7, 7, 7]),
    ("d", .reg 0o644 [7, 7, 7, 7, 7, 7, 7, 7, 7, 8])]

/-- Two files of ten bytes that differ at offset 9 only and hold the
marker at offsets 1 to 3. -/
def ex_marked : World :=
  World.ofList [("s", .reg 0o644 [1, 46, 46, 46, 5, 6, 7, 8, 9, 10]),
    ("d", .reg 0o600 [1, 46, 46, 46, 5, 6, 7, 8, 9, 99])]

/-- A source of three bytes and a destination of five. -/
def ex_mismatch : World :=
  World.ofList [("s", .reg 0o644 [1, 2, 3]), ("d", .reg 0o600 [9, 9, 9, 9, 9])]

/-- An empty source, no destination. -/
def ex_empty : World := World.ofList [("s", .reg 0o644 [])]

/-- An empty source and an empty destination. -/
def ex_empty_both : World := World.ofList [("s", .reg 0o644 []), ("d", .reg 0o600 [])]

/-- An empty source and a destination of three bytes. -/
def ex_empty_full : World :=
  World.ofList [("s", .reg 0o644 []), ("d", .reg 0o600 [1, 2, 3])]

/-- A source at the temporary path of the destination `d`. -/
def ex_tmp_source : World := World.ofList [("d~", .reg 0o644 [1, 2, 3])]

/-- One file, used as source and destination at once. -/
def ex_one : World := World.ofList [("f", .reg 0o644 [1, 2, 3])]

/-- A source and a destination with the same three bytes. -/
def ex_equal : World :=
  World.ofList [("s", .reg 0o644 [1, 2, 3]), ("d", .reg 0o600 [1, 2, 3])]

/-- A source of five bytes, a destination and a stale temporary file. -/
def ex_stale : World :=
  World.ofList [("s", .reg 0o644 [1, 2, 3, 4, 5]), ("d", .reg 0o600 [9]),
    ("d~", .reg 0o400 [8, 8])]

/-- A directory at the source path. -/
def ex_dir_source : World := World.ofList [("s", .dir 0o755)]

/-- A regular source and a directory at the destination path. -/
def ex_dir_dest : World := World.ofList [("s", .reg 0o644 [1, 2, 3]), ("d", .dir 0o755)]

/-- Nothing at all. -/
def ex_nothing : World := World.ofList []

/-- A source of three bytes that everyone may write, no destination. -/
def ex_wide : World := World.ofList [("s", .reg 0o666 [1, 2, 3])]

/-- The characters of a path without a leading `./`. -/
def stripDot : List Char → List Char
  | c1 :: c2 :: rest => if c1 = Char.ofNat 46 ∧ c2 = Char.ofNat 47 then rest else c1 :: c2 :: rest
  | cs => cs

/-- A file `f` of ten bytes and a file `g` of three, in a world where a
leading `./` of a path is resolved away, so that `./f` names the file
`f`. -/
def ex_dot : World :=
  { fs := fun p => [("f", Node.reg 0o644 [7, 7, 7, 7, 7, 7, 7, 7, 7, 7]),
                    ("g", Node.reg 0o644 [1, 2, 3])].lookup p,
    umask := 0o022, trace := [],
    resolve := fun p => String.mk (stripDot p.data),
    resolve_tilde := fun p h => by
      have h1 : (stripDot (p.data ++ [Char.ofNat 126])).length = (stripDot p.data).length + 1 := by
        rcases p.data with _ | ⟨c1, _ | ⟨c2, rest⟩⟩
        · rfl
        · simp [stripDot]
        · by_cases hc : c1 = Char.ofNat 46 ∧ c2 = Char.ofNat 47 <;> simp [stripDot, hc]
      have h2 : stripDot (p.data ++ [Char.ofNat 126]) = stripDot p.data := by
        have h3 := congrArg String.data h
        simpa using h3
      rw [h2] at h1
      omega,
    overrun := false }

/-- The world `ex_differ` with another source of ten bytes that starts
with the same byte. -/
def ex_differ_too : World :=
  World.ofList [("s", .reg 0o600 [7, 1, 2, 3, 4, 5, 6, 7, 8, 9]),
    ("d", .reg 0o644 [7, 7, 7, 7, 7, 7, 7, 7, 7, 8])]

/-! ## Lemmas -/

theorem bind_apply {α β : Type} (x : M α) (f : α → M β) (w : World) :
    (x >>= f) w = match x w with
      | .ret a w1 => f a w1
      | .exit s w1 => .exit s w1 := rfl

theorem pure_apply {α : Type} (a : α) (w : World) : (pure a : M α) w = .ret a w := rfl

theorem tilde_ne (ofn : String) : ofn ++ "~" ≠ ofn := by
  intro h
  have := congrArg String.length h
  rw [String.length_append] at this
  have h1 : "~".length = 1 := by decide
  omega

theorem stat_reg {w : World} {p : String} {md : Nat} {data : List Byte}
    (h : w.fs (w.resolve p) = some (.reg md data)) :
    stat p w = .ret (.ok { isreg := true, st_mode := md, st_size := data.length }) w := by
  simp [stat, h]

theorem lazy_o_size_none {w : World} {p : String} (h : w.fs (w.resolve p) = none) :
    lazy_o_size p w = .ret (-1) w := by
  simp [lazy_o_size, bind_apply, stat, h, pure_apply]

theorem lazy_o_size_reg {w : World} {p : String} {md : Nat} {data : List Byte}
    (h : w.fs (w.resolve p) = some (.reg md data)) :
    lazy_o_size p w = .ret data.length w := by
  simp [lazy_o_size, bind_apply, stat, h, pure_apply]

theorem lazy_o_size_dir {w : World} {p : String} {md : Nat}
    (h : w.fs (w.resolve p) = some (.dir md)) :
    lazy_o_size p w = .exit EX_NOINPUT w := by
  simp [lazy_o_size, bind_apply, stat, h, err]

theorem check_pos {inside : Prop} [Decidable inside] (h : inside) (w : World) :
    check inside w = .ret () w := by
  simp [check, h]

theorem check_world (inside : Prop) [Decidable inside] (w : World) :
    ∃ w1, check inside w = .ret () w1 ∧ w1.fs = w.fs ∧ w1.trace = w.trace ∧
      w1.resolve = w.resolve ∧ w1.umask = w.umask ∧ (inside → w1 = w) := by
  by_cases h : inside
  · exact ⟨w, check_pos h w, rfl, rfl, rfl, rfl, fun _ => rfl⟩
  · exact ⟨{ w with overrun := true }, by simp [check, h], rfl, rfl, rfl, rfl,
      fun hi => absurd hi h⟩

theorem load_reg_world {w : World} {fn : String} {md : Nat} {data : List Byte} (size : Nat)
    (m : Int) (e : Bool) (h : w.fs (w.resolve fn) = some (.reg md data)) :
    ∃ w1, load fn size m e w =
        .ret (if e && ((data.take m.toNat).length : Int) == m
              then (store (data.take m.toNat) (m - 4).toNat ELLIPSIS,
                ((data.take m.toNat).length : Int) - 1)
              else (data.take m.toNat, ((data.take m.toNat).length : Int))) w1 ∧
      w1.fs = w.fs ∧
      w1.trace = w.trace ++ [.load fn m e] ∧ w1.resolve = w.resolve ∧ w1.umask = w.umask := by
  obtain ⟨wa, ha, ha1, ha2, ha3, ha4, -⟩ :=
    check_world ((data.take m.toNat).length ≤ size) { w with trace := w.trace ++ [.load fn m e] }
  obtain ⟨wb, hb, hb1, hb2, hb3, hb4, -⟩ :=
    check_world (0 ≤ m - 4 ∧ (m - 4).toNat + ELLIPSIS.length ≤ size) wa
  by_cases hc : (e && ((data.take m.toNat).length : Int) == m) = true
  · refine ⟨wb, ?_, hb1.trans ha1, hb2.trans ha2, hb3.trans ha3, hb4.trans ha4⟩
    simp only [load, bind_apply, record, open_rdonly, read, h, close, ha, pure_apply, hc,
      if_true, snprintf, hb]
  · refine ⟨wa, ?_, ha1, ha2, ha3, ha4⟩
    simp only [load, bind_apply, record, open_rdonly, read, h, close, ha, pure_apply, hc]
    rfl

theorem load_reg {w : World} {fn : String} {md : Nat} {data : List Byte} (size : Nat) (m : Int)
    (e : Bool) (h : w.fs (w.resolve fn) = some (.reg md data))
    (hsize : (data.take m.toNat).length ≤ size)
    (hoff : e = true → ((data.take m.toNat).length : Int) = m → 4 ≤ m ∧ m ≤ size) :
    load fn size m e w =
      .ret (if e && ((data.take m.toNat).length : Int) == m
              then (store (data.take m.toNat) (m - 4).toNat ELLIPSIS, ((data.take m.toNat).length : Int) - 1)
              else (data.take m.toNat, ((data.take m.toNat).length : Int)))
        { w with trace := w.trace ++ [.load fn m e] } := by
  by_cases hc : (e && ((data.take m.toNat).length : Int) == m) = true
  · have hc2 := hc
    simp only [Bool.and_eq_true, beq_iff_eq] at hc2
    have hin := hoff hc2.1 hc2.2
    have hin2 : 0 ≤ m - 4 ∧ (m - 4).toNat + ELLIPSIS.length ≤ size := by
      have : ELLIPSIS.length = 4 := rfl
      omega
    simp only [load, bind_apply, record, open_rdonly, read, h, close, check_pos hsize, pure_apply,
      hc, if_true, snprintf, check_pos hin2]
  · simp only [load, bind_apply, record, open_rdonly, read, h, close, check_pos hsize, pure_apply,
      hc]
    rfl

theorem load_src_long {w : World} {fn : String} {md : Nat} {data : List Byte} (BF : Nat)
    (hBF : 3 ≤ BF) (h : w.fs (w.resolve fn) = some (.reg md data)) (hlen : BF < data.length) :
    load fn ((BF : Int) + 1).toNat ((BF : Int) + 1) true w =
      .ret (data.take (BF - 3) ++ ELLIPSIS, (BF : Int))
        { w with trace := w.trace ++ [.load fn ((BF : Int) + 1) true] } := by
  have h1 : ((BF : Int) + 1).toNat = BF + 1 := by omega
  rw [load_reg _ _ _ h (by rw [h1, List.length_take]; omega) (by intro _ _; omega)]
  have h2 : ((BF : Int) + 1 - 4).toNat = BF - 3 := by omega
  have h3 : (data.take (BF + 1)).length = BF + 1 := by simp; omega
  simp only [h1, h2, h3, store]
  have h4 : List.drop (BF - 3 + ELLIPSIS.length) (List.take (BF + 1) data) = [] := by
    simp [ELLIPSIS]; omega
  have h5 : List.take (BF - 3) (List.take (BF + 1) data) = List.take (BF - 3) data := by
    rw [List.take_take]; congr 1; omega
  simp [h4, h5]

theorem load_src_short {w : World} {fn : String} {md : Nat} {data : List Byte} (BF : Nat)
    (h : w.fs (w.resolve fn) = some (.reg md data)) (hlen : data.length ≤ BF) :
    load fn ((BF : Int) + 1).toNat ((BF : Int) + 1) true w =
      .ret (data, (data.length : Int))
        { w with trace := w.trace ++ [.load fn ((BF : Int) + 1) true] } := by
  have h1 : ((BF : Int) + 1).toNat = BF + 1 := by omega
  rw [load_reg _ _ _ h (by rw [h1, List.length_take]; omega)
    (by intro _ hl; rw [h1, List.length_take] at hl; omega)]
  have h3 : data.take (BF + 1) = data := List.take_of_length_le (by omega)
  simp only [h1, h3]
  have : ¬ ((data.length : Int) = (BF : Int) + 1) := by omega
  simp [this]

theorem load_dst {w : World} {fn : String} {md : Nat} {data : List Byte} (BF : Nat)
    (h : w.fs (w.resolve fn) = some (.reg md data)) :
    load fn (BF : Int).toNat (BF : Int) false w =
      .ret (data.take BF, ((data.take BF).length : Int))
        { w with trace := w.trace ++ [.load fn (BF : Int) false] } := by
  rw [load_reg _ _ _ h (by simp) (by intro h0; cases h0)]
  simp

theorem memcmp_eq_zero_iff (s1 s2 : List Byte) (n : Nat)
    (h1 : n ≤ s1.length) (h2 : n ≤ s2.length) :
    memcmp s1 s2 n = 0 ↔ s1.take n = s2.take n := by
  induction n generalizing s1 s2 with
  | zero => simp [memcmp]
  | succ k ih =>
    cases s1 with
    | nil => simp at h1
    | cons a t1 =>
      cases s2 with
      | nil => simp at h2
      | cons b t2 =>
        simp only [List.length_cons, Nat.add_le_add_iff_right] at h1 h2
        simp only [memcmp, List.take_succ_cons, List.cons.injEq]
        by_cases hab : a = b
        · simp [hab, ih t1 t2 h1 h2]
        · simp only [hab, if_false, false_and, iff_false]
          intro h0
          exact hab (Int.ofNat_inj.mp (Int.sub_eq_zero.mp h0))

theorem FS.set_same (fs : FS) (p : String) (v : Option Node) : fs.set p v p = v := by
  simp [FS.set]

theorem FS.set_other (fs : FS) {p q : String} (v : Option Node) (h : q ≠ p) :
    fs.set p v q = fs q := by
  simp [FS.set, h]

theorem output_ret {w : World} (bf : List Byte) {n : Int} (ofn : String) (mode : Nat)
    (hn : 0 ≤ n) (hb : n.toNat ≤ bf.length)
    (hx : ∀ md, w.fs (w.resolve (ofn ++ "~")) ≠ some (.dir md))
    (ho : ∀ md, w.fs (w.resolve ofn) ≠ some (.dir md)) :
    output bf n ofn mode w =
      .ret 0 { w with
        fs := (w.fs.set (w.resolve ofn) (some (.reg (tmpMode w ofn mode) (bf.take n.toNat)))).set
                (w.resolve (ofn ++ "~")) none
        trace := w.trace ++ [.output bf n ofn mode] } := by
  have hne : w.resolve (ofn ++ "~") ≠ w.resolve ofn := w.resolve_tilde ofn
  have hne2 : w.resolve ofn ≠ w.resolve (ofn ++ "~") := fun h => hne h.symm
  have hfs : ∀ (md : Nat) (a : Option Node),
      (((w.fs.set (w.resolve (ofn ++ "~")) a).set (w.resolve (ofn ++ "~")) (some (.reg md (bf.take n.toNat)))).set (w.resolve ofn)
          (some (.reg md (bf.take n.toNat)))).set (w.resolve (ofn ++ "~")) none
        = (w.fs.set (w.resolve ofn) (some (.reg md (bf.take n.toNat)))).set (w.resolve (ofn ++ "~")) none := by
    intro md a
    funext p
    by_cases h1 : p = w.resolve (ofn ++ "~")
    · simp [FS.set, h1]
    · by_cases h2 : p = w.resolve ofn <;> simp [FS.set, h1, h2]
  cases hxf : w.fs (w.resolve (ofn ++ "~")) with
  | none =>
    simp only [output, bind_apply, record, open_creat_trunc, hxf, write, FS.set_same, close,
      rename, pure_apply, List.nil_append, if_neg (not_lt.mpr hn), FS.set_other _ _ hne2, if_neg hne,
      if_pos (And.intro hn hb)]
    cases hof : w.fs (w.resolve ofn) with
    | none => simp [tmpMode, hxf, hfs, pure_apply]
    | some nd =>
      cases nd with
      | reg _ _ => simp [tmpMode, hxf, hfs, pure_apply]
      | dir md => exact absurd hof (ho md)
  | some nd =>
    cases nd with
    | dir md => exact absurd hxf (hx md)
    | reg md0 d0 =>
      simp only [output, bind_apply, record, open_creat_trunc, hxf, write, FS.set_same, close,
        rename, pure_apply, List.nil_append, if_neg (not_lt.mpr hn), FS.set_other _ _ hne2, if_neg hne,
        if_pos (And.intro hn hb)]
      cases hof : w.fs (w.resolve ofn) with
      | none => simp [tmpMode, hxf, hfs, pure_apply]
      | some nd =>
        cases nd with
        | reg _ _ => simp [tmpMode, hxf, hfs, pure_apply]
        | dir md => exact absurd hof (ho md)

theorem output_exit {w : World} (bf : List Byte) (n : Int) (ofn : String) (mode md : Nat)
    (hx : w.fs (w.resolve (ofn ++ "~")) = some (.dir md)) :
    output bf n ofn mode w =
      .exit EX_OSERR { w with trace := w.trace ++ [.output bf n ofn mode] } := by
  simp [output, bind_apply, record, open_creat_trunc, hx, err]

theorem reset_reg {w : World} (ofn : String) (mode : Nat) {md : Nat} {data : List Byte}
    (h : w.fs (w.resolve ofn) = some (.reg md data)) :
    reset ofn mode w =
      .ret 0 { w with
        fs := w.fs.set (w.resolve ofn) (some (.reg md []))
        trace := w.trace ++ [.reset ofn mode] } := by
  simp [reset, bind_apply, record, open_creat_trunc, h, close, pure_apply]

theorem lazy_src_none {w : World} (BF : Int) {ifn : String} (ofn : String)
    (h : w.fs (w.resolve ifn) = none) : lazy BF ifn ofn w = .exit EX_NOINPUT w := by
  simp [lazy, bind_apply, stat, h, err]

theorem lazy_src_dir {w : World} (BF : Int) {ifn : String} (ofn : String) {md : Nat}
    (h : w.fs (w.resolve ifn) = some (.dir md)) : lazy BF ifn ofn w = .exit EX_NOINPUT w := by
  simp [lazy, bind_apply, stat, h, err]

theorem lazy_dst_dir {w : World} (BF : Int) {ifn ofn : String} {imd md : Nat}
    {idata : List Byte} (hs : w.fs (w.resolve ifn) = some (.reg imd idata))
    (h : w.fs (w.resolve ofn) = some (.dir md)) : lazy BF ifn ofn w = .exit EX_NOINPUT w := by
  simp [lazy, bind_apply, stat_reg hs, lazy_o_size_dir h]

theorem lazy_empty {w : World} (BF : Int) {ifn ofn : String} {imd : Nat} {o : Int}
    (hs : w.fs (w.resolve ifn) = some (.reg imd [])) (ho : lazy_o_size ofn w = .ret o w) :
    lazy BF ifn ofn w =
      if o = 0 then .ret 0 w else reset ofn (imd &&& ACCESSPERMS) w := by
  by_cases h0 : o = 0 <;> simp [lazy, bind_apply, stat_reg hs, ho, h0, pure_apply]

theorem memcmp_call_pos (s1 s2 : List Byte) {n : Int} (w : World)
    (h : 0 ≤ n ∧ n.toNat ≤ s1.length ∧ n.toNat ≤ s2.length) :
    memcmp_call s1 s2 n w = .ret (memcmp s1 s2 n.toNat) w := by
  simp only [memcmp_call, bind_apply, check_pos h, pure_apply]

theorem lazy_nonempty {w w1 : World} (BF : Int) {ifn ofn : String} {imd : Nat}
    {idata ibf : List Byte} {o xi : Int}
    (hs : w.fs (w.resolve ifn) = some (.reg imd idata)) (hne : idata ≠ [])
    (ho : lazy_o_size ofn w = .ret o w)
    (hl : load ifn (BF + 1).toNat (BF + 1) true w = .ret (ibf, xi) w1) :
    lazy BF ifn ofn w =
      if o = idata.length ∨ (o = BF ∧ BF < idata.length) then
        (load ofn BF.toNat BF false >>= fun q =>
          if xi = q.2 then
            memcmp_call ibf q.1 xi >>= fun c =>
              if c = 0 then pure 0 else output ibf xi ofn (imd &&& ACCESSPERMS)
          else output ibf xi ofn (imd &&& ACCESSPERMS)) w1
      else output ibf xi ofn (imd &&& ACCESSPERMS) w1 := by
  have hpos : (0 : Int) < idata.length := by
    have : 0 < idata.length := List.length_pos.mpr hne
    omega
  by_cases hc : o = idata.length ∨ (o = BF ∧ BF < idata.length)
  · simp only [hc, if_true, bind_apply]
    cases hq : load ofn BF.toNat BF false w1 with
    | exit s w2 => simp [lazy, bind_apply, stat_reg hs, ho, hl, hpos, hc, hq]
    | ret q w2 =>
      obtain ⟨obf, xo⟩ := q
      by_cases h1 : xi = xo
      · subst h1
        cases hm : memcmp_call ibf obf xi w2 with
        | exit s w3 => simp [lazy, bind_apply, stat_reg hs, ho, hl, hpos, hc, hq, hm]
        | ret c w3 =>
          by_cases h2 : c = 0 <;>
            simp [lazy, bind_apply, stat_reg hs, ho, hl, hpos, hc, hq, hm, h2]
      · simp [lazy, bind_apply, stat_reg hs, ho, hl, hpos, hc, hq, h1]
  · simp [lazy, bind_apply, stat_reg hs, ho, hl, hpos, hc]

/-- The first `BF` bytes of the buffer `load` marks. -/
theorem marked_take {data : List Byte} {BF : Nat} (hBF : 3 ≤ BF) (hlen : BF < data.length) :
    (data.take (BF - 3) ++ ELLIPSIS).take BF = data.take (BF - 3) ++ [46, 46, 46] := by
  have hl : (data.take (BF - 3)).length = BF - 3 := by simp; omega
  rw [List.take_append_eq_append_take, hl]
  have h1 : BF - (BF - 3) = 3 := by omega
  rw [h1, List.take_of_length_le (by rw [hl]; omega)]
  rfl

theorem lazy_short_nocmp {w : World} (BF : Nat) {ifn ofn : String} {imd : Nat}
    {idata : List Byte} {o : Int}
    (hs : w.fs (w.resolve ifn) = some (.reg imd idata)) (hne : idata ≠ []) (hlen : idata.length ≤ BF)
    (ho : lazy_o_size ofn w = .ret o w) (hc : o ≠ idata.length) :
    lazy BF ifn ofn w =
      output idata idata.length ofn (imd &&& ACCESSPERMS)
        { w with trace := w.trace ++ [.load ifn ((BF : Int) + 1) true] } := by
  rw [lazy_nonempty BF hs hne ho (load_src_short BF hs hlen)]
  have : ¬ (o = idata.length ∨ (o = (BF : Int) ∧ (BF : Int) < idata.length)) := by omega
  rw [if_neg this]

theorem lazy_short_cmp {w : World} (BF : Nat) {ifn ofn : String} {imd omd : Nat}
    {idata odata : List Byte}
    (hs : w.fs (w.resolve ifn) = some (.reg imd idata)) (hne : idata ≠ []) (hlen : idata.length ≤ BF)
    (hd : w.fs (w.resolve ofn) = some (.reg omd odata)) (hsz : odata.length = idata.length) :
    lazy BF ifn ofn w =
      if odata = idata then
        .ret 0 { w with trace := w.trace ++
          [.load ifn ((BF : Int) + 1) true, .load ofn (BF : Int) false] }
      else
        output idata idata.length ofn (imd &&& ACCESSPERMS)
          { w with trace := w.trace ++
            [.load ifn ((BF : Int) + 1) true, .load ofn (BF : Int) false] } := by
  rw [lazy_nonempty BF hs hne (lazy_o_size_reg hd) (load_src_short BF hs hlen)]
  have hc : ((odata.length : Int) = idata.length ∨
      ((odata.length : Int) = (BF : Int) ∧ (BF : Int) < idata.length)) := by omega
  rw [if_pos hc, bind_apply]
  have hd1 : ({ w with trace := w.trace ++ [Call.load ifn ((BF : Int) + 1) true] } : World).fs (w.resolve ofn)
      = some (.reg omd odata) := hd
  rw [load_dst BF hd1]
  have ht : odata.take BF = odata := List.take_of_length_le (by omega)
  have hm : memcmp idata odata idata.length = 0 ↔ odata = idata := by
    rw [memcmp_eq_zero_iff _ _ _ (le_refl _) (by omega)]
    rw [List.take_of_length_le (le_refl _), List.take_of_length_le (by omega)]
    exact eq_comm
  have hin : (0 : Int) ≤ (idata.length : Int) ∧ ((idata.length : Int)).toNat ≤ idata.length ∧
      ((idata.length : Int)).toNat ≤ odata.length := by
    rw [Int.toNat_ofNat]; omega
  simp only [ht, hsz, if_true, bind_apply, memcmp_call_pos _ _ _ hin, Int.toNat_ofNat, hm,
    List.append_assoc, List.singleton_append]
  by_cases he : odata = idata <;> simp [he, pure_apply]

theorem lazy_long_nocmp {w : World} (BF : Nat) {ifn ofn : String} {imd : Nat}
    {idata : List Byte} {o : Int} (hBF : 3 ≤ BF)
    (hs : w.fs (w.resolve ifn) = some (.reg imd idata)) (hlen : BF < idata.length)
    (ho : lazy_o_size ofn w = .ret o w) (hc1 : o ≠ idata.length) (hc2 : o ≠ BF) :
    lazy BF ifn ofn w =
      output (idata.take (BF - 3) ++ ELLIPSIS) BF ofn (imd &&& ACCESSPERMS)
        { w with trace := w.trace ++ [.load ifn ((BF : Int) + 1) true] } := by
  have hne : idata ≠ [] := by
    intro h
    simp [h] at hlen
  rw [lazy_nonempty BF hs hne ho (load_src_long BF hBF hs hlen)]
  have : ¬ (o = idata.length ∨ (o = (BF : Int) ∧ (BF : Int) < idata.length)) := by omega
  rw [if_neg this]

theorem lazy_long_cmp {w : World} (BF : Nat) {ifn ofn : String} {imd omd : Nat}
    {idata odata : List Byte} (hBF : 3 ≤ BF)
    (hs : w.fs (w.resolve ifn) = some (.reg imd idata)) (hlen : BF < idata.length)
    (hd : w.fs (w.resolve ofn) = some (.reg omd odata))
    (hsz : odata.length = idata.length ∨ odata.length = BF) :
    lazy BF ifn ofn w =
      if odata.take BF = idata.take (BF - 3) ++ [46, 46, 46] then
        .ret 0 { w with trace := w.trace ++
          [.load ifn ((BF : Int) + 1) true, .load ofn (BF : Int) false] }
      else
        output (idata.take (BF - 3) ++ ELLIPSIS) BF ofn (imd &&& ACCESSPERMS)
          { w with trace := w.trace ++
            [.load ifn ((BF : Int) + 1) true, .load ofn (BF : Int) false] } := by
  have hne : idata ≠ [] := by
    intro h
    simp [h] at hlen
  rw [lazy_nonempty BF hs hne (lazy_o_size_reg hd) (load_src_long BF hBF hs hlen)]
  have hc : ((odata.length : Int) = idata.length ∨
      ((odata.length : Int) = (BF : Int) ∧ (BF : Int) < idata.length)) := by omega
  rw [if_pos hc, bind_apply]
  have hd1 : ({ w with trace := w.trace ++ [Call.load ifn ((BF : Int) + 1) true] } : World).fs (w.resolve ofn)
      = some (.reg omd odata) := hd
  rw [load_dst BF hd1]
  have hol : (odata.take BF).length = BF := by simp; omega
  have hil : (idata.take (BF - 3) ++ ELLIPSIS).length = BF + 1 := by
    simp [ELLIPSIS]; omega
  have hm : memcmp (idata.take (BF - 3) ++ ELLIPSIS) (odata.take BF) BF = 0 ↔
      odata.take BF = idata.take (BF - 3) ++ [46, 46, 46] := by
    have h2 : (odata.take BF).take BF = odata.take BF :=
      List.take_of_length_le (by omega)
    rw [memcmp_eq_zero_iff _ _ _ (by omega) (by omega), marked_take hBF hlen, h2]
    exact eq_comm
  have hin : (0 : Int) ≤ (BF : Int) ∧ ((BF : Int)).toNat ≤ (idata.take (BF - 3) ++ ELLIPSIS).length ∧
      ((BF : Int)).toNat ≤ (odata.take BF).length := by
    rw [Int.toNat_ofNat]; omega
  simp only [hol, if_true, bind_apply, memcmp_call_pos _ _ _ hin, Int.toNat_ofNat, hm,
    List.append_assoc, List.singleton_append]
  by_cases he : odata.take BF = idata.take (BF - 3) ++ [46, 46, 46] <;> simp [he, pure_apply]

theorem reset_none {w : World} (ofn : String) (mode : Nat) (h : w.fs (w.resolve ofn) = none) :
    reset ofn mode w =
      .ret 0 { w with
        fs := w.fs.set (w.resolve ofn) (some (.reg (creatMode mode w.umask) []))
        trace := w.trace ++ [.reset ofn mode] } := by
  simp [reset, bind_apply, record, open_creat_trunc, h, close, pure_apply]

theorem output_post {w w1 : World} {bf : List Byte} {n r : Int} {ofn : String} {mode : Nat}
    (hn : 0 ≤ n) (hb : n.toNat ≤ bf.length) (ho : ∀ md, w.fs (w.resolve ofn) ≠ some (.dir md))
    (hrun : output bf n ofn mode w = .ret r w1) :
    r = 0 ∧ w1 = { w with
        fs := (w.fs.set (w.resolve ofn) (some (.reg (tmpMode w ofn mode) (bf.take n.toNat)))).set
                (w.resolve (ofn ++ "~")) none
        trace := w.trace ++ [.output bf n ofn mode] } := by
  by_cases hx : ∃ md, w.fs (w.resolve (ofn ++ "~")) = some (.dir md)
  · obtain ⟨md, hmd⟩ := hx
    rw [output_exit bf n ofn mode md hmd] at hrun
    cases hrun
  · have hx2 : ∀ md, w.fs (w.resolve (ofn ++ "~")) ≠ some (.dir md) := fun md h => hx ⟨md, h⟩
    rw [output_ret bf ofn mode hn hb hx2 ho] at hrun
    injection hrun with h1 h2
    exact ⟨h1.symm, h2.symm⟩

theorem output_trace (bf : List Byte) (n : Int) (ofn : String) (mode : Nat) (w : World) :
    (output bf n ofn mode w).world.trace = w.trace ++ [.output bf n ofn mode] := by
  have hne2 : w.resolve ofn ≠ w.resolve (ofn ++ "~") := fun h => w.resolve_tilde ofn h.symm
  by_cases hn : n < 0 <;> by_cases hb : (0 ≤ n ∧ n ≤ (bf.length : Int)) <;>
    rcases hxf : w.fs (w.resolve (ofn ++ "~")) with _ | ⟨_, _⟩ | _ <;>
    rcases hof : w.fs (w.resolve ofn) with _ | ⟨_, _⟩ | _ <;>
    simp [output, bind_apply, record, open_creat_trunc, hxf, hof, write, FS.set_same, close,
      rename, FS.set_other _ _ hne2, w.resolve_tilde ofn, hn, hb, err, Res.world, pure_apply]

theorem lazy_skip_of_upToDate {w : World} (BF : Nat) {ifn ofn : String} {imd : Nat}
    {idata : List Byte} (hBF : 3 ≤ BF) (hs : w.fs (w.resolve ifn) = some (.reg imd idata))
    (hu : UpToDate BF idata (w.fs (w.resolve ofn))) :
    ∃ cs, lazy BF ifn ofn w = .ret 0 { w with trace := w.trace ++ cs } ∧
      decisionOf cs = .Skip := by
  unfold UpToDate at hu
  by_cases hlen : idata.length ≤ BF
  · rw [if_pos hlen] at hu
    obtain ⟨md, hd⟩ := hu
    by_cases hne : idata = []
    · subst hne
      refine ⟨[], ?_, rfl⟩
      rw [lazy_empty BF hs (lazy_o_size_reg hd)]
      simp
    · refine ⟨[.load ifn ((BF : Int) + 1) true, .load ofn (BF : Int) false], ?_, rfl⟩
      rw [lazy_short_cmp BF hs hne hlen hd rfl, if_pos rfl]
  · rw [if_neg hlen] at hu
    obtain ⟨md, odata, hd, hsz, htk⟩ := hu
    refine ⟨[.load ifn ((BF : Int) + 1) true, .load ofn (BF : Int) false], ?_, rfl⟩
    rw [lazy_long_cmp BF hBF hs (by omega) hd hsz, if_pos htk]

theorem upToDate_written {BF : Nat} {idata bf : List Byte} {fs : FS} (w : World) {ofn : String}
    (md : Nat) (hBF : 3 ≤ BF)
    (hbf : bf = if idata.length ≤ BF then idata else idata.take (BF - 3) ++ [46, 46, 46]) :
    UpToDate BF idata (((fs.set (w.resolve ofn) (some (.reg md bf))).set
      (w.resolve (ofn ++ "~")) none) (w.resolve ofn)) := by
  have hne2 : w.resolve ofn ≠ w.resolve (ofn ++ "~") := fun h => w.resolve_tilde ofn h.symm
  rw [FS.set_other _ _ hne2, FS.set_same]
  unfold UpToDate
  by_cases hlen : idata.length ≤ BF
  · rw [if_pos hlen] at hbf ⊢
    exact ⟨md, by rw [hbf]⟩
  · rw [if_neg hlen] at hbf ⊢
    have hl : bf.length = BF := by
      rw [hbf]; simp; omega
    exact ⟨md, bf, rfl, Or.inr hl, by rw [List.take_of_length_le (by omega), hbf]⟩

theorem lazy_post {w w1 : World} (BF : Nat) {ifn ofn : String} {imd : Nat}
    {idata : List Byte} {r : Int} (hBF : 3 ≤ BF) (hs : w.fs (w.resolve ifn) = some (.reg imd idata))
    (hrun : lazy BF ifn ofn w = .ret r w1) :
    r = 0 ∧ UpToDate BF idata (w1.fs (w.resolve ofn)) := by
  -- the destination is absent or a regular file, else `lazy` exits
  have hnd : ∀ md, w.fs (w.resolve ofn) ≠ some (.dir md) := by
    intro md hd
    rw [lazy_dst_dir BF hs hd] at hrun
    cases hrun
  obtain ⟨o, ho, hoz⟩ : ∃ o, lazy_o_size ofn w = .ret o w ∧
      (w.fs (w.resolve ofn) = none ∧ o = -1 ∨ ∃ omd odata, w.fs (w.resolve ofn) = some (.reg omd odata) ∧
        o = odata.length) := by
    rcases hof : w.fs (w.resolve ofn) with _ | ⟨omd, odata⟩ | md
    · exact ⟨-1, lazy_o_size_none hof, Or.inl ⟨rfl, rfl⟩⟩
    · exact ⟨odata.length, lazy_o_size_reg hof, Or.inr ⟨omd, odata, rfl, rfl⟩⟩
    · exact absurd hof (hnd md)
  by_cases hne : idata = []
  · subst hne
    rw [lazy_empty BF hs ho] at hrun
    rcases hoz with ⟨hof, rfl⟩ | ⟨omd, odata, hof, rfl⟩
    · rw [if_neg (by decide), reset_none _ _ hof] at hrun
      injection hrun with h1 h2
      subst h2
      refine ⟨h1.symm, ?_⟩
      simp [UpToDate, FS.set_same]
    · by_cases hz : (odata.length : Int) = 0
      · rw [if_pos hz] at hrun
        injection hrun with h1 h2
        subst h2
        have : odata = [] := List.length_eq_zero.mp (by omega)
        subst this
        exact ⟨h1.symm, by simp [UpToDate, hof]⟩
      · rw [if_neg hz, reset_reg _ _ hof] at hrun
        injection hrun with h1 h2
        subst h2
        refine ⟨h1.symm, ?_⟩
        simp [UpToDate, FS.set_same]
  · by_cases hlen : idata.length ≤ BF
    · -- a short source
      have hwr : ∀ w0 : World,
          output idata idata.length ofn (imd &&& ACCESSPERMS) w0 = .ret r w1 → w0.fs = w.fs →
          w0.resolve = w.resolve →
          r = 0 ∧ UpToDate BF idata (w1.fs (w.resolve ofn)) := by
        intro w0 hout hw0 hr0
        obtain ⟨hr, hw1⟩ := output_post (by omega) (by simp) (by rw [hw0, hr0]; exact hnd) hout
        refine ⟨hr, ?_⟩
        rw [hw1, ← hr0]
        exact upToDate_written w0 _ hBF (by simp [hlen])
      by_cases hc : o = idata.length
      · rcases hoz with ⟨_, rfl⟩ | ⟨omd, odata, hof, rfl⟩
        · omega
        · rw [lazy_short_cmp BF hs hne hlen hof (by omega)] at hrun
          by_cases he : odata = idata
          · rw [if_pos he] at hrun
            injection hrun with h1 h2
            subst h2
            exact ⟨h1.symm, by simp [UpToDate, hlen, hof, he]⟩
          · rw [if_neg he] at hrun
            exact hwr _ hrun rfl rfl
      · rw [lazy_short_nocmp BF hs hne hlen ho hc] at hrun
        exact hwr _ hrun rfl rfl
    · -- a long source
      have hlen2 : BF < idata.length := by omega
      have hwr : ∀ w0 : World,
          output (idata.take (BF - 3) ++ ELLIPSIS) BF ofn (imd &&& ACCESSPERMS) w0 = .ret r w1 →
          w0.fs = w.fs → w0.resolve = w.resolve →
          r = 0 ∧ UpToDate BF idata (w1.fs (w.resolve ofn)) := by
        intro w0 hout hw0 hr0
        obtain ⟨hr, hw1⟩ := output_post (by omega)
          (by simp only [Int.toNat_ofNat, List.length_append, List.length_take, ELLIPSIS,
                List.length_cons, List.length_nil]
              omega)
          (by rw [hw0, hr0]; exact hnd) hout
        refine ⟨hr, ?_⟩
        rw [hw1, ← hr0]
        exact upToDate_written w0 _ hBF (by simp [hlen, marked_take hBF hlen2])
      by_cases hc : o = idata.length ∨ o = BF
      · rcases hoz with ⟨_, rfl⟩ | ⟨omd, odata, hof, rfl⟩
        · omega
        · rw [lazy_long_cmp BF hBF hs hlen2 hof (by omega)] at hrun
          by_cases he : odata.take BF = idata.take (BF - 3) ++ [46, 46, 46]
          · rw [if_pos he] at hrun
            injection hrun with h1 h2
            subst h2
            refine ⟨h1.symm, ?_⟩
            unfold UpToDate
            rw [if_neg hlen]
            exact ⟨omd, odata, hof, by omega, he⟩
          · rw [if_neg he] at hrun
            exact hwr _ hrun rfl rfl
      · rw [lazy_long_nocmp BF hBF hs hlen2 ho (by omega) (by omega)] at hrun
        exact hwr _ hrun rfl rfl

theorem newCalls_ret {α : Type} (w : World) (a : α) (fs : FS) (u : Nat) (cs : List Call)
    (rs : String → String) (h : ∀ p, rs (p ++ "~") ≠ rs p) (b : Bool) :
    newCalls w (Res.ret a
      { fs := fs, umask := u, trace := w.trace ++ cs, resolve := rs, resolve_tilde := h,
        overrun := b }) = cs := by
  simp [newCalls, Res.world]

theorem newCalls_of_trace {α : Type} (w : World) (r : Res α) (cs : List Call)
    (h : r.world.trace = w.trace ++ cs) : newCalls w r = cs := by
  simp [newCalls, h]

theorem output_frame (bf : List Byte) (n : Int) (ofn : String) (mode : Nat) (w : World)
    (p : String) (h1 : p ≠ w.resolve ofn) (h2 : p ≠ w.resolve (ofn ++ "~")) :
    (output bf n ofn mode w).world.fs p = w.fs p := by
  have hne2 : w.resolve ofn ≠ w.resolve (ofn ++ "~") := fun h => w.resolve_tilde ofn h.symm
  by_cases hn : n < 0 <;> by_cases hb : (0 ≤ n ∧ n ≤ (bf.length : Int)) <;>
    rcases hxf : w.fs (w.resolve (ofn ++ "~")) with _ | ⟨_, _⟩ | _ <;>
    rcases hof : w.fs (w.resolve ofn) with _ | ⟨_, _⟩ | _ <;>
    simp [output, bind_apply, record, open_creat_trunc, hxf, hof, write, FS.set_same, close,
      rename, FS.set_other _ _ hne2, FS.set_other _ _ h1, FS.set_other _ _ h2, w.resolve_tilde ofn, hn,
      hb, err, Res.world, pure_apply]

/-- The size `lazy` takes for a destination that is absent or regular. -/
theorem lazy_o_size_cases {w : World} {ofn : String} (hnd : ∀ md, w.fs (w.resolve ofn) ≠ some (.dir md)) :
    ∃ o, lazy_o_size ofn w = .ret o w ∧
      (w.fs (w.resolve ofn) = none ∧ o = -1 ∨
        ∃ omd odata, w.fs (w.resolve ofn) = some (.reg omd odata) ∧ o = odata.length) := by
  rcases hof : w.fs (w.resolve ofn) with _ | ⟨omd, odata⟩ | md
  · exact ⟨-1, lazy_o_size_none hof, Or.inl ⟨rfl, rfl⟩⟩
  · exact ⟨odata.length, lazy_o_size_reg hof, Or.inr ⟨omd, odata, rfl, rfl⟩⟩
  · exact absurd hof (hnd md)

/-- Truncate: an empty source and a destination that is not an empty
regular file. -/
theorem lazy_truncate {w : World} (BF : Nat) {ifn ofn : String} {imd : Nat}
    (hs : w.fs (w.resolve ifn) = some (.reg imd [])) (hnd : ∀ md, w.fs (w.resolve ofn) ≠ some (.dir md))
    (hnu : ¬ UpToDate BF [] (w.fs (w.resolve ofn))) :
    lazy BF ifn ofn w = reset ofn (imd &&& ACCESSPERMS) w ∧
    ∃ md, reset ofn (imd &&& ACCESSPERMS) w = .ret 0 { w with
        fs := w.fs.set (w.resolve ofn) (some (.reg md []))
        trace := w.trace ++ [.reset ofn (imd &&& ACCESSPERMS)] } := by
  obtain ⟨o, ho, hoz⟩ := lazy_o_size_cases hnd
  rw [lazy_empty BF hs ho]
  rcases hoz with ⟨hof, rfl⟩ | ⟨omd, odata, hof, rfl⟩
  · exact ⟨by rw [if_neg (by decide)], _, reset_none _ _ hof⟩
  · have hz : ¬ ((odata.length : Int) = 0) := by
      intro hz
      have : odata = [] := List.length_eq_zero.mp (by omega)
      subst this
      exact hnu (by simp [UpToDate, hof])
    exact ⟨by rw [if_neg hz], _, reset_reg _ _ hof⟩

/-- Write: a source that is not empty and a destination that does not
hold what `lazy` would write. -/
theorem lazy_write {w : World} (BF : Nat) {ifn ofn : String} {imd : Nat} {idata : List Byte}
    (hBF : 3 ≤ BF) (hs : w.fs (w.resolve ifn) = some (.reg imd idata)) (hne : idata ≠ [])
    (hnd : ∀ md, w.fs (w.resolve ofn) ≠ some (.dir md)) (hnu : ¬ UpToDate BF idata (w.fs (w.resolve ofn))) :
    ∃ cs ibf xi,
      load ifn ((BF : Int) + 1).toNat ((BF : Int) + 1) true w =
        .ret (ibf, xi) { w with trace := w.trace ++ [.load ifn ((BF : Int) + 1) true] } ∧
      lazy BF ifn ofn w =
        output ibf xi ofn (imd &&& ACCESSPERMS) { w with trace := w.trace ++ cs } ∧
      0 ≤ xi ∧ xi.toNat ≤ ibf.length ∧ ibf.take xi.toNat = written BF idata ∧
      (cs = [.load ifn ((BF : Int) + 1) true] ∨
        cs = [.load ifn ((BF : Int) + 1) true, .load ofn (BF : Int) false]) := by
  obtain ⟨o, ho, hoz⟩ := lazy_o_size_cases hnd
  by_cases hlen : idata.length ≤ BF
  · have hw : idata.take (Int.toNat (idata.length : Int)) = written BF idata := by
      simp [written, hlen]
    by_cases hc : o = idata.length
    · rcases hoz with ⟨_, rfl⟩ | ⟨omd, odata, hof, rfl⟩
      · omega
      · have he : odata ≠ idata := by
          intro he
          exact hnu (by simp [UpToDate, hlen, hof, he])
        exact ⟨_, idata, idata.length, load_src_short BF hs hlen,
          by rw [lazy_short_cmp BF hs hne hlen hof (by omega), if_neg he],
          by omega, by simp, hw, Or.inr rfl⟩
    · exact ⟨_, idata, idata.length, load_src_short BF hs hlen,
        lazy_short_nocmp BF hs hne hlen ho hc, by omega, by simp, hw, Or.inl rfl⟩
  · have hlen2 : BF < idata.length := by omega
    have hw : (idata.take (BF - 3) ++ ELLIPSIS).take (Int.toNat (BF : Int)) = written BF idata := by
      simp only [written, if_neg hlen, Int.toNat_ofNat, marked_take hBF hlen2]
    have hxb : (BF : Int).toNat ≤ (idata.take (BF - 3) ++ ELLIPSIS).length := by
      simp only [Int.toNat_ofNat, List.length_append, List.length_take, ELLIPSIS,
        List.length_cons, List.length_nil]
      omega
    by_cases hc : o = idata.length ∨ o = BF
    · rcases hoz with ⟨_, rfl⟩ | ⟨omd, odata, hof, rfl⟩
      · omega
      · have he : ¬ odata.take BF = idata.take (BF - 3) ++ [46, 46, 46] := by
          intro he
          apply hnu
          unfold UpToDate
          rw [if_neg hlen]
          exact ⟨omd, odata, hof, by omega, he⟩
        exact ⟨_, _, BF, load_src_long BF hBF hs hlen2,
          by rw [lazy_long_cmp BF hBF hs hlen2 hof (by omega), if_neg he],
          by omega, hxb, hw, Or.inr rfl⟩
    · exact ⟨_, _, BF, load_src_long BF hBF hs hlen2,
        lazy_long_nocmp BF hBF hs hlen2 ho (by omega) (by omega), by omega, hxb, hw, Or.inl rfl⟩

/-- No run of `lazy` touches a file other than the destination and the
one at the temporary path. -/
theorem lazy_frame (BF : Nat) (hBF : 3 ≤ BF) (ifn ofn : String) (w : World) (p : String)
    (h1 : p ≠ w.resolve ofn) (h2 : p ≠ w.resolve (ofn ++ "~")) :
    (lazy BF ifn ofn w).world.fs p = w.fs p := by
  rcases hs : w.fs (w.resolve ifn) with _ | ⟨imd, idata⟩ | md
  · rw [lazy_src_none BF ofn hs]; rfl
  · by_cases hd : ∃ md, w.fs (w.resolve ofn) = some (.dir md)
    · obtain ⟨md, hd⟩ := hd
      rw [lazy_dst_dir BF hs hd]; rfl
    · have hnd : ∀ md, w.fs (w.resolve ofn) ≠ some (.dir md) := fun md h => hd ⟨md, h⟩
      by_cases hu : UpToDate BF idata (w.fs (w.resolve ofn))
      · obtain ⟨cs, hrun, _⟩ := lazy_skip_of_upToDate BF hBF hs hu
        rw [hrun]; rfl
      · by_cases hne : idata = []
        · subst hne
          obtain ⟨hrun, md, hres⟩ := lazy_truncate BF hs hnd hu
          rw [hrun, hres]
          exact FS.set_other _ _ h1
        · obtain ⟨cs, ibf, xi, _, hrun, _⟩ := lazy_write BF hBF hs hne hnd hu
          rw [hrun]
          exact output_frame _ _ _ _ _ p h1 h2
  · rw [lazy_src_dir BF ofn hs]; rfl

theorem output_resolve (bf : List Byte) (n : Int) (ofn : String) (mode : Nat) (w : World) :
    (output bf n ofn mode w).world.resolve = w.resolve ∧
      (output bf n ofn mode w).world.umask = w.umask ∧
      (0 ≤ n → n.toNat ≤ bf.length → (output bf n ofn mode w).world.overrun = w.overrun) := by
  have hne2 : w.resolve ofn ≠ w.resolve (ofn ++ "~") := fun h => w.resolve_tilde ofn h.symm
  by_cases hn : n < 0 <;> by_cases hb : (0 ≤ n ∧ n ≤ (bf.length : Int)) <;>
    rcases hxf : w.fs (w.resolve (ofn ++ "~")) with _ | ⟨_, _⟩ | _ <;>
    rcases hof : w.fs (w.resolve ofn) with _ | ⟨_, _⟩ | _ <;>
    simp [output, bind_apply, record, open_creat_trunc, hxf, hof, write, FS.set_same, close,
      rename, FS.set_other _ _ hne2, w.resolve_tilde ofn, hn, hb, err, Res.world, pure_apply] <;>
    omega

/-- No run of `lazy` changes what the paths resolve to or the umask, or
sets the flag `overrun`. -/
theorem lazy_resolve (BF : Nat) (hBF : 3 ≤ BF) (ifn ofn : String) (w : World) :
    (lazy BF ifn ofn w).world.resolve = w.resolve ∧
      (lazy BF ifn ofn w).world.umask = w.umask ∧
      (lazy BF ifn ofn w).world.overrun = w.overrun := by
  rcases hs : w.fs (w.resolve ifn) with _ | ⟨imd, idata⟩ | md
  · rw [lazy_src_none BF ofn hs]; exact ⟨rfl, rfl, rfl⟩
  · by_cases hd : ∃ md, w.fs (w.resolve ofn) = some (.dir md)
    · obtain ⟨md, hd⟩ := hd
      rw [lazy_dst_dir BF hs hd]; exact ⟨rfl, rfl, rfl⟩
    · have hnd : ∀ md, w.fs (w.resolve ofn) ≠ some (.dir md) := fun md h => hd ⟨md, h⟩
      by_cases hu : UpToDate BF idata (w.fs (w.resolve ofn))
      · obtain ⟨cs, hrun, _⟩ := lazy_skip_of_upToDate BF hBF hs hu
        rw [hrun]; exact ⟨rfl, rfl, rfl⟩
      · by_cases hne : idata = []
        · subst hne
          obtain ⟨hrun, md, hres⟩ := lazy_truncate BF hs hnd hu
          rw [hrun, hres]
          exact ⟨rfl, rfl, rfl⟩
        · obtain ⟨cs, ibf, xi, _, hrun, hxi, hxb, _⟩ := lazy_write BF hBF hs hne hnd hu
          rw [hrun]
          obtain ⟨h1, h2, h3⟩ := output_resolve ibf xi ofn (imd &&& ACCESSPERMS)
            { w with trace := w.trace ++ cs }
          exact ⟨h1, h2, h3 hxi hxb⟩
  · rw [lazy_src_dir BF ofn hs]; exact ⟨rfl, rfl, rfl⟩

/-- A run of `lazy` that returns leaves the resolution of paths as it
was. -/
theorem lazy_ret_resolve {w w1 : World} (BF : Nat) (hBF : 3 ≤ BF) {ifn ofn : String} {r : Int}
    (hrun : lazy BF ifn ofn w = .ret r w1) : w1.resolve = w.resolve := by
  have h := (lazy_resolve BF hBF ifn ofn w).1
  rw [hrun] at h
  exact h

theorem main_getopt_cases (noconv : Int) (opts : List (Char × Option String)) (b : Int)
    (w : World) :
    (∃ b1, main_getopt noconv opts b w = .ret b1 w) ∨
      main_getopt noconv opts b w = .exit EX_USAGE w := by
  induction opts generalizing b with
  | nil => exact Or.inl ⟨b, rfl⟩
  | cons hd tl ih =>
    obtain ⟨ch, optarg⟩ := hd
    unfold main_getopt
    by_cases hch : (ch.toNat == 98) = true
    · rw [if_pos hch]
      cases optarg with
      | none => exact Or.inr rfl
      | some text =>
        by_cases he : ((valueof noconv text).2 != 0) = true
        · simp only [he, if_true]; exact Or.inr rfl
        · simp only [he]; exact ih _
    · rw [if_neg hch]; exact Or.inr rfl

theorem isDir_false {v : Option Node} (h : isDir v = false) : ∀ md, v ≠ some (.dir md) := by
  intro md hv
  rw [hv] at h
  cases h

/-- A long source and an absent destination: the marked prefix is
written. -/
theorem lazy_long_absent {w : World} (BF : Nat) {ifn ofn : String} {imd : Nat}
    {idata : List Byte} (hBF : 3 ≤ BF) (hs : w.fs (w.resolve ifn) = some (.reg imd idata))
    (hlen : BF < idata.length) (hd : w.fs (w.resolve ofn) = none)
    (hx : isDir (w.fs (w.resolve (ofn ++ "~"))) = false) :
    lazy BF ifn ofn w = .ret 0 { w with
      fs := (w.fs.set (w.resolve ofn) (some (.reg (tmpMode w ofn (imd &&& ACCESSPERMS))
              (idata.take (BF - 3) ++ [46, 46, 46])))).set (w.resolve (ofn ++ "~")) none
      trace := w.trace ++ [.load ifn ((BF : Int) + 1) true,
        .output (idata.take (BF - 3) ++ ELLIPSIS) BF ofn (imd &&& ACCESSPERMS)] } := by
  rw [lazy_long_nocmp BF hBF hs hlen (lazy_o_size_none hd) (by omega) (by omega)]
  have hout := output_ret
    (w := { w with trace := w.trace ++ [Call.load ifn ((BF : Int) + 1) true] })
    (idata.take (BF - 3) ++ ELLIPSIS) (n := (BF : Int)) ofn (imd &&& ACCESSPERMS)
    (by omega)
    (by simp only [Int.toNat_ofNat, List.length_append, List.length_take, ELLIPSIS,
          List.length_cons, List.length_nil]
        omega)
    (isDir_false hx) (by intro md h; rw [show _ = w.fs (w.resolve ofn) from rfl, hd] at h; cases h)
  rw [hout]
  simp only [Int.toNat_ofNat, marked_take hBF hlen, List.append_assoc, List.singleton_append,
    tmpMode]

/-- The length and the tail of the marked prefix. -/
theorem marked_length (data : List Byte) (BF : Nat) (hBF : 3 ≤ BF) (hlen : BF < data.length) :
    (data.take (BF - 3) ++ [46, 46, 46]).length = BF ∧
    (data.take (BF - 3) ++ [46, 46, 46]).drop (BF - 3) = [46, 46, 46] ∧
    (data.take (BF - 3) ++ [46, 46, 46]).take (BF - 3) = data.take (BF - 3) := by
  have hl : (data.take (BF - 3)).length = BF - 3 := by simp; omega
  refine ⟨by rw [List.length_append, hl]; simp; omega, ?_, ?_⟩
  · rw [List.drop_left' hl]
  · rw [List.take_left' hl]

/-- The function `main` on two operands, step by step. -/
theorem main_eq (noconv : Int) (self : String) (opts : List (Char × Option String))
    (ifn ofn : String) (w : World) :
    main noconv self opts [ifn, ofn] w =
      match main_getopt noconv opts 4096 w with
      | .exit s w0 => .exit s w0
      | .ret b w0 =>
        if b < 4 ∨ b > 0x20000 then .exit EX_USAGE w0
        else
          match lazy b ifn ofn w0 with
          | .exit s w1 => .exit s w1
          | .ret res w1 =>
            if self = "lazymove" then
              match w1.fs (w1.resolve ifn) with
              | some (.reg _ _) => .ret res { w1 with fs := w1.fs.set (w1.resolve ifn) none }
              | _ => .exit EX_OSERR w1
            else .ret res w1 := by
  simp only [main, bind_apply]
  rcases main_getopt noconv opts 4096 w with ⟨b, w0⟩ | ⟨s, w0⟩
  · by_cases hb : b < 4 ∨ b > 0x20000
    · simp [hb, err]
    · simp only [hb, if_false]
      have hb2 : (decide (b < 4) || decide (b > 0x20000)) = false := by
        simpa using hb
      simp only [hb2, Bool.false_eq_true, if_false, bind_apply]
      rcases lazy b ifn ofn w0 with ⟨res, w1⟩ | ⟨s, w1⟩
      · by_cases hself : self = "lazymove"
        · subst hself
          rcases hf : w1.fs (w1.resolve ifn) with _ | ⟨_, _⟩ | _ <;>
            simp [bind_apply, unlink, hf, err, pure_apply]
        · simp [hself, pure_apply]
      · rfl
  · rfl

/-- A run of `main` that returns: the cutoff was admitted, `lazy`
returned, and under the name `lazymove` the source was removed. -/
theorem main_ret {noconv : Int} {self : String} {opts : List (Char × Option String)}
    {ifn ofn : String} {w w1 : World} {r : Int}
    (hrun : main noconv self opts [ifn, ofn] w = .ret r w1) :
    ∃ b w0, main_getopt noconv opts 4096 w = .ret b w ∧ 4 ≤ b ∧ b ≤ 131072 ∧
      lazy b ifn ofn w = .ret r w0 ∧ w0.resolve = w.resolve ∧
      (self = "lazymove" →
        (∃ md data, w0.fs (w.resolve ifn) = some (.reg md data)) ∧
          w1 = { w0 with fs := w0.fs.set (w.resolve ifn) none }) ∧
      (self ≠ "lazymove" → w1 = w0) := by
  rw [main_eq] at hrun
  rcases main_getopt_cases noconv opts 4096 w with ⟨b, hg⟩ | hg
  · rw [hg] at hrun
    simp only at hrun
    by_cases hb : b < 4 ∨ b > 0x20000
    · rw [if_pos hb] at hrun
      cases hrun
    · rw [if_neg hb] at hrun
      rcases hl : lazy b ifn ofn w with ⟨res, w0⟩ | ⟨s, w0⟩
      · rw [hl] at hrun
        simp only at hrun
        have hres : w0.resolve = w.resolve := by
          obtain ⟨n, rfl⟩ := Int.eq_ofNat_of_zero_le (show 0 ≤ b by omega)
          have h3 := (lazy_resolve n (by omega) ifn ofn w).1
          rw [hl] at h3
          exact h3
        rw [congrFun hres ifn] at hrun
        by_cases hself : self = "lazymove"
        · rw [if_pos hself] at hrun
          rcases hf : w0.fs (w.resolve ifn) with _ | ⟨md, data⟩ | _
          · rw [hf] at hrun
            cases hrun
          · rw [hf] at hrun
            simp only at hrun
            injection hrun with h1 h2
            subst h1
            exact ⟨b, w0, hg, by omega, by omega, hl, hres,
              fun _ => ⟨⟨md, data, hf⟩, h2.symm⟩, fun h => absurd hself h⟩
          · rw [hf] at hrun
            cases hrun
        · rw [if_neg hself] at hrun
          injection hrun with h1 h2
          subst h1
          exact ⟨b, w0, hg, by omega, by omega, hl, hres, fun h => absurd h hself,
            fun _ => h2.symm⟩
      · rw [hl] at hrun
        cases hrun
  · rw [hg] at hrun
    cases hrun

/-- In copy mode `main` returns what `lazy` returns. -/
theorem main_copy_of_lazy {noconv : Int} {self : String} {opts : List (Char × Option String)}
    {ifn ofn : String} {w w0 : World} {r b : Int} (hself : self ≠ "lazymove")
    (hg : main_getopt noconv opts 4096 w = .ret b w) (hlo : 4 ≤ b) (hhi : b ≤ 131072)
    (hl : lazy b ifn ofn w = .ret r w0) :
    main noconv self opts [ifn, ofn] w = .ret r w0 := by
  rw [main_eq, hg]
  simp only
  rw [if_neg (by omega), hl]
  simp only
  rw [if_neg hself]

/-- The option loop either stops with the usage status or goes on, and leaves the
world as it was. -/
theorem main_getopt_last (noconv : Int) (pre : List (Char × Option String)) (text : String)
    (b : Int) (w : World) :
    main_getopt noconv (pre ++ [(Char.ofNat 98, some text)]) b w = .exit EX_USAGE w ∨
      ((valueof noconv text).2 = 0 ∧
        main_getopt noconv (pre ++ [(Char.ofNat 98, some text)]) b w
          = .ret (valueof noconv text).1 w) := by
  induction pre generalizing b with
  | nil =>
    by_cases he : (valueof noconv text).2 = 0
    · right
      refine ⟨he, ?_⟩
      simp [main_getopt, he, pure_apply]
    · left
      simp [main_getopt, he, usage, err]
  | cons hd tl ih =>
    obtain ⟨ch, optarg⟩ := hd
    simp only [List.cons_append]
    unfold main_getopt
    by_cases hch : (ch.toNat == 98) = true
    · rw [if_pos hch]
      cases optarg with
      | none => exact Or.inl rfl
      | some t =>
        by_cases he : ((valueof noconv t).2 != 0) = true
        · simp only [he, if_true]; exact Or.inl rfl
        · simp only [he]; exact ih _
    · rw [if_neg hch]; exact Or.inl rfl

/-- The function `main` when the option loop stops the process. -/
theorem main_getopt_exit {noconv : Int} {opts : List (Char × Option String)} {w : World}
    {s : Int} (self : String) (args : List String)
    (h : main_getopt noconv opts 4096 w = .exit s w) :
    main noconv self opts args w = .exit s w := by
  simp [main, bind_apply, h]

/-- The function `main` when the cutoff is out of range. -/
theorem main_range_exit {noconv : Int} {opts : List (Char × Option String)} {w : World}
    {b : Int} (self : String) (args : List String)
    (h : main_getopt noconv opts 4096 w = .ret b w) (hb : b < 4 ∨ 131072 < b) :
    main noconv self opts args w = .exit EX_USAGE w := by
  have hb2 : (decide (b < 4) || decide (b > 0x20000)) = true := by
    simpa using hb
  rcases args with _ | ⟨a1, _ | ⟨a2, _ | ⟨a3, rest⟩⟩⟩ <;>
    simp [main, bind_apply, h, usage, err, hb2, hb]

theorem digitOf_digitChar : ∀ d : Fin 10, digitOf (Nat.digitChar d.val) = some d.val := by
  decide

theorem digitChar_not_sign : ∀ d : Fin 10,
    isspace (Nat.digitChar d.val) = false ∧ Nat.digitChar d.val ≠ Char.ofNat 45 ∧
      Nat.digitChar d.val ≠ Char.ofNat 43 ∧ Nat.digitChar d.val ≠ Char.ofNat 120 := by
  decide

/-- Every character of a decimal numeral is a decimal digit. -/
theorem toDigitsCore_digits (f : Nat) : ∀ (n : Nat) (ds : List Char),
    (∀ c ∈ ds, ∃ d : Fin 10, c = Nat.digitChar d.val) →
    ∀ c ∈ Nat.toDigitsCore 10 f n ds, ∃ d : Fin 10, c = Nat.digitChar d.val := by
  induction f with
  | zero => intro n ds h; simpa [Nat.toDigitsCore] using h
  | succ f ih =>
    intro n ds h
    have hd : ∀ c ∈ Nat.digitChar (n % 10) :: ds, ∃ d : Fin 10, c = Nat.digitChar d.val := by
      intro c hc
      rcases List.mem_cons.mp hc with rfl | hc
      · exact ⟨⟨n % 10, Nat.mod_lt _ (by decide)⟩, rfl⟩
      · exact h c hc
    simp only [Nat.toDigitsCore]
    split
    · exact hd
    · exact ih _ _ hd

/-- Reading back the digits that `Nat.toDigitsCore` writes. -/
theorem strtoul_digits_toDigitsCore (f : Nat) : ∀ (n : Nat) (ds : List Char) (a : Nat)
    (any : Bool), n < f →
    ∃ k, strtoul_digits 10 (Nat.toDigitsCore 10 f n ds) a any
      = strtoul_digits 10 ds (a * 10 ^ k + n) true := by
  induction f with
  | zero => intro n ds a any h; omega
  | succ f ih =>
    intro n ds a any h
    have hdig : digitOf (Nat.digitChar (n % 10)) = some (n % 10) :=
      digitOf_digitChar ⟨n % 10, Nat.mod_lt _ (by decide)⟩
    have hlt : n % 10 < 10 := Nat.mod_lt _ (by decide)
    simp only [Nat.toDigitsCore]
    by_cases h0 : n / 10 = 0
    · rw [if_pos h0]
      refine ⟨1, ?_⟩
      simp only [strtoul_digits, hdig, hlt, if_true, pow_one]
      have : n % 10 = n := by omega
      rw [this]
    · rw [if_neg h0]
      obtain ⟨k, hk⟩ := ih (n / 10) (Nat.digitChar (n % 10) :: ds) a any (by omega)
      refine ⟨k + 1, ?_⟩
      rw [hk]
      simp only [strtoul_digits, hdig, hlt, if_true]
      congr 1
      rw [pow_succ]
      have := Nat.div_add_mod n 10
      nlinarith

/-- The function `strtoul` reads a decimal numeral back. -/
theorem strtoul_toDigits (noconv : Int) (n : Nat) (h : n ≤ ULONG_MAX) :
    strtoul noconv (Nat.toDigits 10 n) 10 = (n, 0) := by
  have hall := toDigitsCore_digits (n + 1) n [] (by simp)
  obtain ⟨k, hk⟩ := strtoul_digits_toDigitsCore (n + 1) n [] 0 false (by omega)
  simp only [strtoul_digits, Nat.zero_mul, Nat.zero_add] at hk
  unfold Nat.toDigits
  generalize Nat.toDigitsCore 10 (n + 1) n [] = l at hall hk
  cases l with
  | nil => simp [strtoul_digits] at hk
  | cons c rest =>
    obtain ⟨d, hd⟩ := hall c (List.mem_cons_self _ _)
    obtain ⟨hsp, hminus, hplus, _⟩ := digitChar_not_sign d
    rw [← hd] at hsp hminus hplus
    have h1 : (c :: rest).dropWhile isspace = c :: rest := by
      simp [List.dropWhile, hsp]
    have h2 : ((c :: rest).head? == some (Char.ofNat 45)) = false := by
      simp [hminus]
    have h3 : ((c :: rest).head? == some (Char.ofNat 43)) = false := by
      simp [hplus]
    have h4 : ¬ n > ULONG_MAX := by omega
    simp only [strtoul, h1, h2, h3, Bool.or_false, Bool.false_eq_true, if_false]
    simp [hk, h4]

/-- The function `valueof` on the decimal numeral of a number that fits
an `unsigned long`. -/
theorem valueof_toString (noconv : Int) (n : Nat) (h : n ≤ ULONG_MAX) :
    valueof noconv (toString n) = (toInt32 n, 0) := by
  have hl : (toString n).toList = Nat.toDigits 10 n := rfl
  have hall := toDigitsCore_digits (n + 1) n [] (by simp)
  have hpre : ("0x".toList.isPrefixOf (Nat.toDigits 10 n)) = false := by
    unfold Nat.toDigits
    generalize Nat.toDigitsCore 10 (n + 1) n [] = l at hall
    rcases l with _ | ⟨c1, _ | ⟨c2, rest⟩⟩
    · rfl
    · simp [List.isPrefixOf]
    · obtain ⟨d, hd⟩ := hall c2 (by simp)
      have hx := (digitChar_not_sign d).2.2.2
      rw [← hd] at hx
      have hx2 : ¬ (Char.ofNat 120 = c2) := fun h => hx h.symm
      have : "0x".toList = [Char.ofNat 48, Char.ofNat 120] := by decide
      simp [this, List.isPrefixOf, hx2]
  simp only [valueof, hl, hpre, Bool.false_eq_true, if_false, strtoul_toDigits noconv n h]

/-- No run of `main` sets the flag `overrun`: `lazy` is called with a
cutoff in [4, 131072] only. -/
theorem main_overrun (noconv : Int) (self : String) (opts : List (Char × Option String))
    (args : List String) (w : World) :
    (main noconv self opts args w).world.overrun = w.overrun := by
  have hother : ∀ args : List String, (∀ a b, args ≠ [a, b]) →
      (main noconv self opts args w).world.overrun = w.overrun := by
    intro args hargs
    rcases main_getopt_cases noconv opts 4096 w with ⟨b, hg⟩ | hg
    · rcases args with _ | ⟨a1, _ | ⟨a2, _ | ⟨a3, rest⟩⟩⟩
      · simp [main, bind_apply, hg, usage, err, Res.world]
      · simp [main, bind_apply, hg, usage, err, Res.world]
      · exact absurd rfl (hargs a1 a2)
      · simp [main, bind_apply, hg, usage, err, Res.world]
    · rw [main_getopt_exit self args hg]
      rfl
  rcases args with _ | ⟨ifn, _ | ⟨ofn, _ | ⟨a3, rest⟩⟩⟩
  · exact hother _ (by intro a b h; cases h)
  · exact hother _ (by intro a b h; cases h)
  · rw [main_eq]
    rcases main_getopt_cases noconv opts 4096 w with ⟨b, hg⟩ | hg
    · rw [hg]
      simp only
      by_cases hb : b < 4 ∨ b > 0x20000
      · rw [if_pos hb]; rfl
      · rw [if_neg hb]
        obtain ⟨n, rfl⟩ := Int.eq_ofNat_of_zero_le (show 0 ≤ b by omega)
        have h3 := (lazy_resolve n (by omega) ifn ofn w).2.2
        rcases hl : lazy (n : Int) ifn ofn w with ⟨res, w1⟩ | ⟨s, w1⟩
        · rw [hl] at h3
          simp only
          by_cases hself : self = "lazymove"
          · rw [if_pos hself]
            rcases hf : w1.fs (w1.resolve ifn) with _ | ⟨_, _⟩ | _ <;> exact h3
          · rw [if_neg hself]
            exact h3
        · rw [hl] at h3
          exact h3
    · rw [hg]; rfl
  · exact hother _ (by intro a b h; cases h)

theorem isDir_true {v : Option Node} (h : isDir v = true) : ∃ md, v = some (.dir md) := by
  rcases v with _ | ⟨_, _⟩ | md
  · cases h
  · cases h
  · exact ⟨md, rfl⟩

/-- The fatal precondition failures of `lazy`: the process exits with
`EX_NOINPUT` and the world is as it was. -/
theorem lazy_precondition_exit (BF : Int) (ifn ofn : String) (w : World)
    (h : w.fs (w.resolve ifn) = none ∨ isDir (w.fs (w.resolve ifn)) = true ∨ isDir (w.fs (w.resolve ofn)) = true) :
    lazy BF ifn ofn w = .exit EX_NOINPUT w := by
  rcases hs : w.fs (w.resolve ifn) with _ | ⟨imd, idata⟩ | md
  · exact lazy_src_none BF ofn hs
  · rcases h with h | h | h
    · rw [hs] at h; cases h
    · rw [hs] at h; cases h
    · obtain ⟨md, hd⟩ := isDir_true h
      exact lazy_dst_dir BF hs hd
  · exact lazy_src_dir BF ofn hs

/-- When `lazy` exits whatever the cutoff, `main` exits in the same world. -/
theorem main_exit_of_lazy_exit (noconv : Int) (self : String)
    (opts : List (Char × Option String)) (ifn ofn : String) (w : World) (s : Int)
    (h : ∀ b, lazy b ifn ofn w = .exit s w) :
    main noconv self opts [ifn, ofn] w = .exit EX_USAGE w ∨
      main noconv self opts [ifn, ofn] w = .exit s w := by
  rw [main_eq]
  rcases main_getopt_cases noconv opts 4096 w with ⟨b, hg⟩ | hg
  · rw [hg]
    simp only
    by_cases hb : b < 4 ∨ b > 0x20000
    · rw [if_pos hb]; exact Or.inl rfl
    · rw [if_neg hb, h b]; exact Or.inr rfl
  · rw [hg]; exact Or.inl rfl

theorem creatMode_of_disjoint (mode umask : Nat) (h : mode &&& umask = 0) :
    creatMode mode umask = mode := by
  simp [creatMode, h]

/-- The two ways a call of `output` on a destination that is not a
directory ends, decided by what is at the temporary path. -/
theorem output_result (bf : List Byte) {n : Int} (ofn : String) (mode : Nat) (w : World)
    (hn : 0 ≤ n) (hb : n.toNat ≤ bf.length) (ho : ∀ md, w.fs (w.resolve ofn) ≠ some (.dir md)) :
    (isDir (w.fs (w.resolve (ofn ++ "~"))) = true ∧
      output bf n ofn mode w =
        .exit EX_OSERR { w with trace := w.trace ++ [.output bf n ofn mode] }) ∨
    (isDir (w.fs (w.resolve (ofn ++ "~"))) = false ∧
      output bf n ofn mode w =
        .ret 0 { w with
          fs := (w.fs.set (w.resolve ofn) (some (.reg (tmpMode w ofn mode) (bf.take n.toNat)))).set
                  (w.resolve (ofn ++ "~")) none
          trace := w.trace ++ [.output bf n ofn mode] }) := by
  cases hx : isDir (w.fs (w.resolve (ofn ++ "~")))
  · exact Or.inr ⟨rfl, output_ret bf ofn mode hn hb (isDir_false hx) ho⟩
  · obtain ⟨md, hmd⟩ := isDir_true hx
    exact Or.inl ⟨rfl, output_exit bf n ofn mode md hmd⟩

/-- The decision that a run of `lazy` shows, by the state it starts in. -/
theorem lazy_decision {w : World} (BF : Nat) {ifn ofn : String} {imd : Nat}
    {idata : List Byte} (hBF : 3 ≤ BF) (hs : w.fs (w.resolve ifn) = some (.reg imd idata))
    (hnd : ∀ md, w.fs (w.resolve ofn) ≠ some (.dir md)) :
    (UpToDate BF idata (w.fs (w.resolve ofn)) → decisionOf (newCalls w (lazy BF ifn ofn w)) = .Skip) ∧
    (¬ UpToDate BF idata (w.fs (w.resolve ofn)) → idata = [] →
      decisionOf (newCalls w (lazy BF ifn ofn w)) = .Truncate) ∧
    (¬ UpToDate BF idata (w.fs (w.resolve ofn)) → idata ≠ [] →
      decisionOf (newCalls w (lazy BF ifn ofn w)) = .Write) := by
  refine ⟨fun hu => ?_, fun hu he => ?_, fun hu hne => ?_⟩
  · obtain ⟨cs, hrun, hskip⟩ := lazy_skip_of_upToDate BF hBF hs hu
    rw [hrun, newCalls_ret]
    exact hskip
  · subst he
    obtain ⟨htr, md, hres⟩ := lazy_truncate BF hs hnd hu
    rw [htr, hres, newCalls_ret]
    rfl
  · obtain ⟨cs, ibf, xi, _, hrun, _, _, _, hcs⟩ := lazy_write BF hBF hs hne hnd hu
    rw [hrun, newCalls_of_trace _ _ (cs ++ [.output ibf xi ofn (imd &&& ACCESSPERMS)])
      (by rw [output_trace]; simp)]
    rcases hcs with rfl | rfl <;> rfl

/-- A run of `lazy` that returns started with a regular source and a
destination that is not a directory. -/
theorem lazy_ret_pre {w w1 : World} {BF : Int} {ifn ofn : String} {r : Int}
    (hrun : lazy BF ifn ofn w = .ret r w1) :
    (∃ imd idata, w.fs (w.resolve ifn) = some (.reg imd idata)) ∧ ∀ md, w.fs (w.resolve ofn) ≠ some (.dir md) := by
  rcases hs : w.fs (w.resolve ifn) with _ | ⟨imd, idata⟩ | md
  · rw [lazy_src_none _ ofn hs] at hrun
    cases hrun
  · refine ⟨⟨imd, idata, rfl⟩, ?_⟩
    intro md hd
    rw [lazy_dst_dir _ hs hd] at hrun
    cases hrun
  · rw [lazy_src_dir _ ofn hs] at hrun
    cases hrun

/-- What a run of `lazy` on the Write path leaves when it returns. -/
theorem lazy_write_post {w w1 : World} (BF : Nat) {ifn ofn : String} {imd : Nat}
    {idata : List Byte} {r : Int} (hBF : 3 ≤ BF) (hs : w.fs (w.resolve ifn) = some (.reg imd idata))
    (hne : idata ≠ []) (hnu : ¬ UpToDate BF idata (w.fs (w.resolve ofn)))
    (hrun : lazy BF ifn ofn w = .ret r w1) :
    r = 0 ∧ isDir (w.fs (w.resolve (ofn ++ "~"))) = false ∧
      w1.fs = (w.fs.set (w.resolve ofn) (some (.reg (tmpMode w ofn (imd &&& ACCESSPERMS))
                (written BF idata)))).set (w.resolve (ofn ++ "~")) none := by
  have hnd := (lazy_ret_pre hrun).2
  obtain ⟨cs, ibf, xi, _, hwr, hxi, hxb, hbuf, _⟩ := lazy_write BF hBF hs hne hnd hnu
  rw [hwr] at hrun
  rcases output_result ibf ofn (imd &&& ACCESSPERMS) { w with trace := w.trace ++ cs } hxi hxb hnd
    with ⟨_, hex⟩ | ⟨hx, hre⟩
  · rw [hex] at hrun
    cases hrun
  · rw [hre] at hrun
    injection hrun with h1 h2
    subst h2
    exact ⟨h1.symm, hx, by simp only [hbuf, tmpMode]⟩

/-- A run of `lazy` on a source that is not empty, in full: the decision,
whether it returns, and the file system it leaves. -/
theorem lazy_summary {w : World} (BF : Nat) {ifn ofn : String} {imd : Nat}
    {idata : List Byte} (hBF : 3 ≤ BF) (hs : w.fs (w.resolve ifn) = some (.reg imd idata))
    (hne : idata ≠ []) (hnd : ∀ md, w.fs (w.resolve ofn) ≠ some (.dir md)) :
    (UpToDate BF idata (w.fs (w.resolve ofn)) →
      decisionOf (newCalls w (lazy BF ifn ofn w)) = .Skip ∧
      (lazy BF ifn ofn w).val? = some 0 ∧ (lazy BF ifn ofn w).world.fs = w.fs) ∧
    (¬ UpToDate BF idata (w.fs (w.resolve ofn)) →
      decisionOf (newCalls w (lazy BF ifn ofn w)) = .Write ∧
      (isDir (w.fs (w.resolve (ofn ++ "~"))) = true →
        (lazy BF ifn ofn w).val? = none ∧ (lazy BF ifn ofn w).world.fs = w.fs) ∧
      (isDir (w.fs (w.resolve (ofn ++ "~"))) = false →
        (lazy BF ifn ofn w).val? = some 0 ∧
        (lazy BF ifn ofn w).world.fs =
          (w.fs.set (w.resolve ofn) (some (.reg (tmpMode w ofn (imd &&& ACCESSPERMS))
            (written BF idata)))).set (w.resolve (ofn ++ "~")) none)) := by
  obtain ⟨hskip, _, hwrite⟩ := lazy_decision BF hBF hs hnd
  refine ⟨fun hu => ⟨hskip hu, ?_⟩, fun hu => ⟨hwrite hu hne, ?_⟩⟩
  · obtain ⟨cs, hrun, _⟩ := lazy_skip_of_upToDate BF hBF hs hu
    rw [hrun]
    exact ⟨rfl, rfl⟩
  · obtain ⟨cs, ibf, xi, _, hwr, hxi, hxb, hbuf, _⟩ := lazy_write BF hBF hs hne hnd hu
    rw [hwr]
    rcases output_result ibf ofn (imd &&& ACCESSPERMS) { w with trace := w.trace ++ cs } hxi hxb hnd
      with ⟨hx, hex⟩ | ⟨hx, hre⟩
    · have hx0 : isDir (w.fs (w.resolve (ofn ++ "~"))) = true := hx
      rw [hex]
      exact ⟨fun _ => ⟨rfl, rfl⟩, fun h => absurd (hx0.symm.trans h) (by decide)⟩
    · have hx0 : isDir (w.fs (w.resolve (ofn ++ "~"))) = false := hx
      rw [hre]
      refine ⟨fun h => absurd (hx0.symm.trans h) (by decide), fun _ => ⟨rfl, ?_⟩⟩
      simp only [Res.world, hbuf, tmpMode]

/-- For a short source the destination is up to date exactly when it
holds the content of the source. -/
theorem upToDate_short_iff {BF : Nat} {idata : List Byte} (dst : Option Node)
    (hlen : idata.length ≤ BF) :
    UpToDate BF idata dst ↔
      (match dst with
       | some (.reg _ data) => some data
       | _ => none) = some idata := by
  unfold UpToDate
  rw [if_pos hlen]
  rcases dst with _ | ⟨md, data⟩ | md
  · simp
  · simp
  · simp

/-- For a long source the destination is up to date exactly when it is
long enough and starts with the marked prefix. -/
theorem upToDate_long_congr {BF : Nat} {S S' : List Byte} (dst : Option Node)
    (hlong : BF < S.length) (hlen : S'.length = S.length)
    (hagree : S'.take (BF - 3) = S.take (BF - 3)) :
    UpToDate BF S dst ↔ UpToDate BF S' dst := by
  unfold UpToDate
  rw [if_neg (by omega), if_neg (by omega), hlen, hagree]

theorem written_long_congr {BF : Nat} {S S' : List Byte}
    (hlong : BF < S.length) (hlen : S'.length = S.length)
    (hagree : S'.take (BF - 3) = S.take (BF - 3)) :
    written BF S' = written BF S := by
  unfold written
  rw [if_neg (by omega), if_neg (by omega), hagree]

theorem Res.ret_of_val? {α : Type} {r : Res α} {a : α} (h : r.val? = some a) :
    ∃ w1, r = .ret a w1 := by
  cases r with
  | ret b w1 =>
    simp only [Res.val?, Option.some.injEq] at h
    exact ⟨w1, by rw [h]⟩
  | exit s w1 => cases h

/-- A run of `lazy` returns when the source is regular and neither the
destination nor the temporary path is a directory. -/
theorem lazy_returns {w : World} (BF : Nat) {ifn ofn : String} {imd : Nat}
    {idata : List Byte} (hBF : 3 ≤ BF) (hs : w.fs (w.resolve ifn) = some (.reg imd idata))
    (hnd : ∀ md, w.fs (w.resolve ofn) ≠ some (.dir md)) (hx : isDir (w.fs (w.resolve (ofn ++ "~"))) = false) :
    ∃ w1, lazy BF ifn ofn w = .ret 0 w1 := by
  by_cases hu : UpToDate BF idata (w.fs (w.resolve ofn))
  · obtain ⟨cs, hrun, _⟩ := lazy_skip_of_upToDate BF hBF hs hu
    exact ⟨_, hrun⟩
  · by_cases hne : idata = []
    · subst hne
      obtain ⟨htr, md, hres⟩ := lazy_truncate BF hs hnd hu
      exact ⟨_, by rw [htr, hres]⟩
    · exact Res.ret_of_val? (((lazy_summary BF hBF hs hne hnd).2 hu).2.2 hx).1

/-- A store inside the buffer leaves its length as it was. -/
theorem store_length (bf bytes : List Byte) (off : Nat) (h : off + bytes.length ≤ bf.length) :
    (store bf off bytes).length = bf.length := by
  simp only [store, List.length_append, List.length_take, List.length_drop]
  omega

/-- The check of the cutoff in `main`: when `strtoul` reports an error for
the text of the last `-b`, or the value `valueof` returns is not in
[4, 131072], the program exits with the usage status in the world as it
was.  For the decimal numeral of a number below 2^31 that is so exactly
when the number is not in [4, 131072]. -/
theorem main_cutoff_rejected (noconv : Int) (self : String)
    (pre : List (Char × Option String)) (args : List String) (w : World) :
    (∀ text, CutoffRejected noconv text →
      main noconv self (pre ++ [(Char.ofNat 98, some text)]) args w = .exit EX_USAGE w) ∧
    (∀ n : Nat, n < 2 ^ 31 →
      (CutoffRejected noconv (toString n) ↔ ¬ (4 ≤ n ∧ n ≤ 131072))) ∧
    CutoffRejected noconv "3" ∧ CutoffRejected noconv "0x20001" ∧
    CutoffRejected noconv "abc" := by
  refine ⟨?_, ?_, ?_, ?_, ?_⟩
  · intro text hrej
    rcases main_getopt_last noconv pre text 4096 w with hg | ⟨he, hg⟩
    · exact main_getopt_exit self args hg
    · rcases hrej with h | h | h
      · exact absurd he h
      · exact main_range_exit self args hg (Or.inl h)
      · exact main_range_exit self args hg (Or.inr h)
  · intro n hn
    have hfit : n ≤ ULONG_MAX := by
      have : (2 : Nat) ^ 31 ≤ ULONG_MAX := by decide
      omega
    have hconv : toInt32 n = (n : Int) := by
      have h1 : n % 2 ^ 32 = n := Nat.mod_eq_of_lt (by omega)
      simp only [toInt32, h1]
      rw [if_pos hn]
    simp only [CutoffRejected, valueof_toString noconv n hfit, hconv]
    omega
  · have hv : valueof noconv "3" = (3, 0) := rfl
    simp only [CutoffRejected, hv]
    right; left
    decide
  · have hv : valueof noconv "0x20001" = (131073, 0) := rfl
    simp only [CutoffRejected, hv]
    right; right
    decide
  · have hv : valueof noconv "abc" = (0, noconv) := rfl
    simp only [CutoffRejected, hv]
    right; left
    decide

/-! ## The claims -/

/-- C1 (idempotence in copy mode): for every cutoff in [4, 131072] and
every world, if a run of `lazy` returns and leaves the source as it was,
then a second run with the same arguments returns 0, changes nothing in
the file system (so the destination is byte-identical) and takes the Skip
path: neither `output` nor `reset` is called. -/
theorem lazy_idempotent (BF : Int) (hBF : 4 ≤ BF ∧ BF ≤ 131072) (ifn ofn : String)
    (w w1 : World) (r : Int) (hrun : lazy BF ifn ofn w = .ret r w1)
    (hsrc : w1.fs (w.resolve ifn) = w.fs (w.resolve ifn)) :
    ∃ w2, lazy BF ifn ofn w1 = .ret 0 w2 ∧ w2.fs = w1.fs ∧
      decisionOf (newCalls w1 (lazy BF ifn ofn w1)) = .Skip := by
  obtain ⟨hlo, _⟩ := hBF
  lift BF to ℕ using (by omega)
  rcases hs : w.fs (w.resolve ifn) with _ | ⟨imd, idata⟩ | md
  · rw [lazy_src_none _ ofn hs] at hrun
    cases hrun
  · obtain ⟨_, hu⟩ := lazy_post BF (by omega) hs hrun
    have hres := lazy_ret_resolve BF (by omega) hrun
    have hs1 : w1.fs (w1.resolve ifn) = some (.reg imd idata) := by rw [hres, hsrc, hs]
    have hu1 : UpToDate BF idata (w1.fs (w1.resolve ofn)) := by rw [hres]; exact hu
    obtain ⟨cs, hrun2, hskip⟩ := lazy_skip_of_upToDate BF (by omega) hs1 hu1
    refine ⟨_, hrun2, rfl, ?_⟩
    rw [hrun2, newCalls_ret]
    exact hskip
  · rw [lazy_src_dir _ ofn hs] at hrun
    cases hrun

theorem lazy_idempotent_witness :
    ∃ w2, lazy 4 "s" "d" (lazy 4 "s" "d" ex_five).world = .ret 0 w2 ∧
      w2.fs = (lazy 4 "s" "d" ex_five).world.fs ∧
      decisionOf (newCalls (lazy 4 "s" "d" ex_five).world
        (lazy 4 "s" "d" (lazy 4 "s" "d" ex_five).world)) = .Skip :=
  lazy_idempotent 4 (by decide) "s" "d" ex_five (lazy 4 "s" "d" ex_five).world 0 rfl rfl

/-- C2, as stated, fails: with cutoff 4, a source of ten bytes and a
destination of the same size that differs from it only at offset 9 (the
cutoff plus 5), so that their first 4 bytes agree, `lazy` calls `output`
and replaces the destination by the marked prefix. -/
theorem lazy_prefix_equal_counterexample :
    ex_differ.fs "s" = some (.reg 0o644 [7, 7, 7, 7, 7, 7, 7, 7, 7, 7]) ∧
      ex_differ.fs "d" = some (.reg 0o644 [7, 7, 7, 7, 7, 7, 7, 7, 7, 8]) ∧
      ([7, 7, 7, 7, 7, 7, 7, 7, 7, 8] : List Byte).take 4
        = ([7, 7, 7, 7, 7, 7, 7, 7, 7, 7] : List Byte).take 4 ∧
      decisionOf (newCalls ex_differ (lazy 4 "s" "d" ex_differ)) = .Write ∧
      (lazy 4 "s" "d" ex_differ).world.fs "d" = some (.reg 0o644 [7, 46, 46, 46]) := by
  decide

/-- C2, amended: for every cutoff in [4, 131072] and every pair of regular
files of the same size whose first cutoff bytes agree, `lazy` returns 0
on the Skip path and leaves the file system untouched when the size is
at most the cutoff or the three bytes of the destination at offsets
cutoff-3 to cutoff-1 are the marker; otherwise it takes the Write path.
Bytes at offset cutoff and beyond play no part in this. -/
theorem lazy_prefix_equal (BF : Nat) (hBF : 4 ≤ BF ∧ BF ≤ 131072) (ifn ofn : String)
    (w : World) (imd omd : Nat) (idata odata : List Byte)
    (hs : w.fs (w.resolve ifn) = some (.reg imd idata)) (hd : w.fs (w.resolve ofn) = some (.reg omd odata))
    (hsz : odata.length = idata.length) (hpre : odata.take BF = idata.take BF) :
    (idata.length ≤ BF ∨ (odata.take BF).drop (BF - 3) = [46, 46, 46] →
      (∃ w1, lazy BF ifn ofn w = .ret 0 w1 ∧ w1.fs = w.fs) ∧
        decisionOf (newCalls w (lazy BF ifn ofn w)) = .Skip) ∧
    (¬ (idata.length ≤ BF ∨ (odata.take BF).drop (BF - 3) = [46, 46, 46]) →
      decisionOf (newCalls w (lazy BF ifn ofn w)) = .Write) := by
  have hBF3 : 3 ≤ BF := by omega
  -- the marker sits in the destination exactly when the destination is up to date
  have hiff : (idata.length ≤ BF ∨ (odata.take BF).drop (BF - 3) = [46, 46, 46]) ↔
      UpToDate BF idata (w.fs (w.resolve ofn)) := by
    unfold UpToDate
    by_cases hlen : idata.length ≤ BF
    · have h1 : odata = idata := by
        rw [List.take_of_length_le (by omega), List.take_of_length_le hlen] at hpre
        exact hpre
      simp [hlen, hd, h1]
    · rw [if_neg hlen]
      have hsplit : odata.take BF = idata.take (BF - 3) ++ (odata.take BF).drop (BF - 3) := by
        have h1 : (odata.take BF).take (BF - 3) = idata.take (BF - 3) := by
          rw [hpre, List.take_take]
          congr 1
          omega
        rw [← h1, List.take_append_drop]
      constructor
      · rintro (h | h)
        · exact absurd h hlen
        · exact ⟨omd, odata, hd, Or.inl hsz, by rw [hsplit, h]⟩
      · rintro ⟨md, od, hd2, _, htk⟩
        rw [hd] at hd2
        injection hd2 with hd3
        injection hd3 with _ hd4
        subst hd4
        right
        rw [htk, List.drop_left' (by simp; omega)]
  refine ⟨fun h => ?_, fun h => ?_⟩
  · obtain ⟨cs, hrun, hskip⟩ := lazy_skip_of_upToDate BF hBF3 hs (hiff.mp h)
    refine ⟨⟨_, hrun, rfl⟩, ?_⟩
    rw [hrun, newCalls_ret]
    exact hskip
  · have hnu : ¬ UpToDate BF idata (w.fs (w.resolve ofn)) := fun hu => h (hiff.mpr hu)
    have hne : idata ≠ [] := by
      intro he
      apply h
      left
      simp [he]
    have hnd : ∀ md, w.fs (w.resolve ofn) ≠ some (.dir md) := by
      intro md hmd
      rw [hd] at hmd
      cases hmd
    obtain ⟨cs, ibf, xi, _, hrun, _, _, _, hcs⟩ := lazy_write BF hBF3 hs hne hnd hnu
    rw [hrun, newCalls_of_trace _ _ (cs ++ [.output ibf xi ofn (imd &&& ACCESSPERMS)])
      (by rw [output_trace]; simp)]
    rcases hcs with rfl | rfl <;> rfl

theorem lazy_prefix_equal_witness :
    (∃ w1, lazy ((4 : Nat) : Int) "s" "d" ex_marked = .ret 0 w1 ∧ w1.fs = ex_marked.fs) ∧
      decisionOf (newCalls ex_marked (lazy ((4 : Nat) : Int) "s" "d" ex_marked)) = .Skip :=
  (lazy_prefix_equal 4 (by decide) "s" "d" ex_marked 0o644 0o600
    [1, 46, 46, 46, 5, 6, 7, 8, 9, 10] [1, 46, 46, 46, 5, 6, 7, 8, 9, 99]
    rfl rfl rfl rfl).1 (Or.inr rfl)

/-- C3 (size mismatch forces Write): for every cutoff that is not negative
(`main` admits 4 to 131072), every source that is not empty and every
destination that is absent, or is a regular file whose size differs from
the source's and is not the cutoff while the source is longer than the
cutoff, `lazy` loads the source prefix and then is exactly the call of
`output` on that buffer; whatever the destination holds, the calls made
are that one `load` of the source and `output`, and no `load` of the
destination, under whatever path that names it. -/
theorem lazy_size_mismatch_writes (BF : Int) (hBF : 0 ≤ BF) (ifn ofn : String) (w : World)
    (imd : Nat) (idata : List Byte) (hs : w.fs (w.resolve ifn) = some (.reg imd idata)) (hne : idata ≠ [])
    (hd : w.fs (w.resolve ofn) = none ∨ ∃ omd odata, w.fs (w.resolve ofn) = some (.reg omd odata) ∧
      (odata.length : Int) ≠ idata.length ∧
      ¬ ((odata.length : Int) = BF ∧ BF < idata.length)) :
    ∃ ibf xi w1, load ifn (BF + 1).toNat (BF + 1) true w = .ret (ibf, xi) w1 ∧
      lazy BF ifn ofn w = output ibf xi ofn (imd &&& ACCESSPERMS) w1 ∧
      newCalls w (lazy BF ifn ofn w) =
        [.load ifn (BF + 1) true, .output ibf xi ofn (imd &&& ACCESSPERMS)] ∧
      (∀ fn m e, Call.load fn m e ∈ newCalls w (lazy BF ifn ofn w) →
        w.resolve fn ≠ w.resolve ofn) ∧
      decisionOf (newCalls w (lazy BF ifn ofn w)) = .Write := by
  have hio : w.resolve ifn ≠ w.resolve ofn := by
    intro h
    rw [← h, hs] at hd
    rcases hd with hd | ⟨omd, odata, hd, hsz, _⟩
    · cases hd
    · injection hd with hd
      injection hd with _ hd
      subst hd
      exact hsz rfl
  obtain ⟨o, ho, hc⟩ : ∃ o, lazy_o_size ofn w = .ret o w ∧
      ¬ (o = idata.length ∨ (o = BF ∧ BF < idata.length)) := by
    rcases hd with hd | ⟨omd, odata, hd, hsz, hcut⟩
    · exact ⟨-1, lazy_o_size_none hd, by omega⟩
    · exact ⟨odata.length, lazy_o_size_reg hd, by omega⟩
  obtain ⟨w1, hl, -, htr, -, -⟩ := load_reg_world (BF + 1).toNat (BF + 1) true hs
  generalize hr : (if (true && ((idata.take (BF + 1).toNat).length : Int) == BF + 1) = true
      then (store (idata.take (BF + 1).toNat) (BF + 1 - 4).toNat ELLIPSIS,
        ((idata.take (BF + 1).toNat).length : Int) - 1)
      else (idata.take (BF + 1).toNat, ((idata.take (BF + 1).toNat).length : Int))) = res at hl
  obtain ⟨ibf, xi⟩ := res
  have hrun := lazy_nonempty BF hs hne ho hl
  rw [if_neg hc] at hrun
  have hcalls : newCalls w (lazy BF ifn ofn w) =
      [.load ifn (BF + 1) true, .output ibf xi ofn (imd &&& ACCESSPERMS)] := by
    rw [hrun]
    exact newCalls_of_trace _ _ _ (by rw [output_trace, htr]; simp)
  refine ⟨ibf, xi, _, hl, hrun, hcalls, ?_, ?_⟩
  · intro fn m e hmem
    rw [hcalls] at hmem
    simp at hmem
    rw [hmem.1]
    exact hio
  · rw [hcalls]
    rfl

theorem lazy_size_mismatch_writes_witness :
    ∃ ibf xi w1, load "s" (4 + 1 : Int).toNat (4 + 1) true ex_mismatch = .ret (ibf, xi) w1 ∧
      lazy 4 "s" "d" ex_mismatch = output ibf xi "d" (0o644 &&& ACCESSPERMS) w1 ∧
      newCalls ex_mismatch (lazy 4 "s" "d" ex_mismatch) =
        [.load "s" (4 + 1) true, .output ibf xi "d" (0o644 &&& ACCESSPERMS)] ∧
      (∀ fn m e, Call.load fn m e ∈ newCalls ex_mismatch (lazy 4 "s" "d" ex_mismatch) →
        ex_mismatch.resolve fn ≠ ex_mismatch.resolve "d") ∧
      decisionOf (newCalls ex_mismatch (lazy 4 "s" "d" ex_mismatch)) = .Write :=
  lazy_size_mismatch_writes 4 (by decide) "s" "d" ex_mismatch 0o644 [1, 2, 3] rfl (by decide)
    (Or.inr ⟨0o600, [9, 9, 9, 9, 9], rfl, by decide, by decide⟩)

/-- C4, as stated, fails: for a source of 5000 zero bytes, an absent
destination and cutoff 4096, the destination `lazy` leaves has 4096
bytes, not 4095. -/
theorem lazy_truncated_write_counterexample :
    ∃ md data, (lazy 4096 "s" "d" ex_zeros).world.fs "d" = some (.reg md data) ∧
      data.length = 4096 ∧ data.length ≠ 4096 - 1 := by
  have h := @lazy_long_absent ex_zeros 4096 "s" "d" 0o644 (List.replicate 5000 0)
    (by decide) rfl (by rw [List.length_replicate]; decide) rfl rfl
  have hm := marked_length (List.replicate 5000 0) 4096 (by decide)
    (by rw [List.length_replicate]; decide)
  refine ⟨tmpMode ex_zeros "d" (0o644 &&& ACCESSPERMS),
    List.take (4096 - 3) (List.replicate 5000 0) ++ [46, 46, 46], ?_, hm.1, ?_⟩
  · rw [show ((4096 : Int) = ((4096 : Nat) : Int)) from rfl, h]
    simp only [Res.world]
    exact (FS.set_other _ _ (show ("d" : String) ≠ "d" ++ "~" by decide)).trans
      (FS.set_same _ "d" _)
  · rw [hm.1]
    decide

/-- C4, amended: for every cutoff in [4, 131072], every source longer than
the cutoff and an absent destination (the temporary path not being a
directory), `lazy` returns 0 on the Write path and the destination it
leaves has exactly cutoff bytes: the first cutoff-3 bytes of the source
and then the marker; for 5000 zero bytes and cutoff 4096 that is 4096
bytes. -/
theorem lazy_truncated_write (BF : Nat) (hBF : 4 ≤ BF ∧ BF ≤ 131072) (ifn ofn : String)
    (w : World) (imd : Nat) (idata : List Byte)
    (hs : w.fs (w.resolve ifn) = some (.reg imd idata)) (hlen : BF < idata.length)
    (hd : w.fs (w.resolve ofn) = none) (hx : isDir (w.fs (w.resolve (ofn ++ "~"))) = false) :
    ∃ w1 md data, lazy BF ifn ofn w = .ret 0 w1 ∧
      decisionOf (newCalls w (lazy BF ifn ofn w)) = .Write ∧
      w1.fs (w.resolve ofn) = some (.reg md data) ∧ data.length = BF ∧
      data.drop (BF - 3) = [46, 46, 46] ∧ data.take (BF - 3) = idata.take (BF - 3) := by
  have hrun := lazy_long_absent BF (by omega) hs hlen hd hx
  have hm := marked_length idata BF (by omega) hlen
  refine ⟨_, tmpMode w ofn (imd &&& ACCESSPERMS), idata.take (BF - 3) ++ [46, 46, 46], hrun,
    ?_, ?_, hm.1, hm.2.1, hm.2.2⟩
  · rw [hrun, newCalls_ret]
    rfl
  · show ((w.fs.set (w.resolve ofn) _).set (w.resolve (ofn ++ "~")) none) (w.resolve ofn) = _
    rw [FS.set_other _ _ (fun h => w.resolve_tilde ofn h.symm), FS.set_same]

theorem lazy_truncated_write_witness :
    ∃ w1 md data, lazy ((4096 : Nat) : Int) "s" "d" ex_zeros = .ret 0 w1 ∧
      decisionOf (newCalls ex_zeros (lazy ((4096 : Nat) : Int) "s" "d" ex_zeros)) = .Write ∧
      w1.fs "d" = some (.reg md data) ∧ data.length = 4096 ∧
      data.drop (4096 - 3) = [46, 46, 46] ∧
      data.take (4096 - 3) = (List.replicate 5000 0).take (4096 - 3) :=
  lazy_truncated_write 4096 (by decide) "s" "d" ex_zeros 0o644 (List.replicate 5000 0)
    rfl (by rw [List.length_replicate]; decide) rfl rfl

/-- C5, as stated, fails: with cutoff 4, a source of exactly 4 bytes is not
partial-marked: `load` returns the four bytes and the length 4, which is
the number of bytes read, and `lazy` writes them out verbatim. -/
theorem load_partial_mark_counterexample :
    ex_four.fs "s" = some (.reg 0o644 [1, 2, 3, 4]) ∧
      (4 : Int) ≤ ([1, 2, 3, 4] : List Byte).length ∧
      (load "s" (4 + 1 : Int).toNat (4 + 1) true ex_four).val? = some ([1, 2, 3, 4], 4) ∧
      ¬ PartialMarked 4 ([1, 2, 3, 4], 4) ∧
      contentOf (lazy 4 "s" "d" ex_four).world.fs "d" = some [1, 2, 3, 4] := by
  refine ⟨by decide, by decide, by decide, ?_, by decide⟩
  unfold PartialMarked
  decide

/-- C5, amended: for every cutoff in [4, 131072] the prefix buffer that
`lazy` loads from a regular source is partial-marked (its length reported
as one less than the bytes read, the marker at its end) if and only if
the source is longer than the cutoff; the buffer is then the first
cutoff-3 bytes of the source, the marker and a NUL, and the length
reported is the cutoff.  A source of at most cutoff bytes, so also one of
exactly cutoff bytes, is loaded verbatim with its own length. -/
theorem load_partial_mark (BF : Nat) (hBF : 4 ≤ BF ∧ BF ≤ 131072) (ifn : String) (w : World)
    (imd : Nat) (idata : List Byte) (hs : w.fs (w.resolve ifn) = some (.reg imd idata)) :
    ∃ r w1, load ifn ((BF : Int) + 1).toNat ((BF : Int) + 1) true w = .ret r w1 ∧
      (PartialMarked (min (idata.length : Int) ((BF : Int) + 1)) r ↔ BF < idata.length) ∧
      (BF < idata.length → r = (idata.take (BF - 3) ++ [46, 46, 46, 0], (BF : Int))) ∧
      (idata.length ≤ BF → r = (idata, (idata.length : Int))) := by
  by_cases hlen : BF < idata.length
  · refine ⟨_, _, load_src_long BF (by omega) hs hlen, ?_, fun _ => rfl, fun h => by omega⟩
    have hm := marked_length idata BF (by omega) hlen
    have ht : (idata.take (BF - 3) ++ ELLIPSIS).take BF = idata.take (BF - 3) ++ [46, 46, 46] :=
      marked_take (by omega) hlen
    simp only [PartialMarked, Int.toNat_ofNat, ht, hm.2.1, hlen, iff_true, and_true]
    omega
  · refine ⟨_, _, load_src_short BF hs (by omega), ?_, fun h => absurd h hlen, fun _ => rfl⟩
    simp only [PartialMarked, hlen, iff_false, not_and]
    intro h
    omega

theorem load_partial_mark_witness :
    ∃ r w1, load "s" (((4 : Nat) : Int) + 1).toNat (((4 : Nat) : Int) + 1) true ex_five = .ret r w1 ∧
      (PartialMarked (min ((([1, 2, 3, 4, 5] : List Byte).length : Nat) : Int)
        (((4 : Nat) : Int) + 1)) r ↔ 4 < ([1, 2, 3, 4, 5] : List Byte).length) ∧
      (4 < ([1, 2, 3, 4, 5] : List Byte).length →
        r = (([1, 2, 3, 4, 5] : List Byte).take (4 - 3) ++ [46, 46, 46, 0], ((4 : Nat) : Int))) ∧
      (([1, 2, 3, 4, 5] : List Byte).length ≤ 4 →
        r = ([1, 2, 3, 4, 5], ((([1, 2, 3, 4, 5] : List Byte).length : Nat) : Int))) :=
  load_partial_mark 4 (by decide) "s" ex_five 0o644 [1, 2, 3, 4, 5] rfl

/-- C6, as stated, fails: for an empty source and an absent destination
`lazy` calls `reset`, which creates the destination as an empty file. -/
theorem lazy_empty_source_counterexample :
    ex_empty.fs "s" = some (.reg 0o644 []) ∧ ex_empty.fs "d" = none ∧
      decisionOf (newCalls ex_empty (lazy 4096 "s" "d" ex_empty)) = .Truncate ∧
      (lazy 4096 "s" "d" ex_empty).world.fs "d" = some (.reg 0o644 []) := by
  decide

/-- C6, amended: for every source of size 0, if the destination is a
regular file of size 0, `lazy` returns 0 and leaves the world as it was
(the Skip path: no call, no mutation); if the destination is absent,
`lazy` calls `reset`, which creates it as an empty file. -/
theorem lazy_empty_source (BF : Int) (ifn ofn : String) (w : World) (imd : Nat)
    (hs : w.fs (w.resolve ifn) = some (.reg imd [])) :
    (∀ omd, w.fs (w.resolve ofn) = some (.reg omd []) →
      lazy BF ifn ofn w = .ret 0 w ∧ decisionOf (newCalls w (lazy BF ifn ofn w)) = .Skip) ∧
    (w.fs (w.resolve ofn) = none →
      lazy BF ifn ofn w = .ret 0 { w with
        fs := w.fs.set (w.resolve ofn) (some (.reg (creatMode (imd &&& ACCESSPERMS) w.umask) []))
        trace := w.trace ++ [.reset ofn (imd &&& ACCESSPERMS)] } ∧
      decisionOf (newCalls w (lazy BF ifn ofn w)) = .Truncate) := by
  constructor
  · intro omd hd
    have hrun : lazy BF ifn ofn w = .ret 0 w := by
      rw [lazy_empty BF hs (lazy_o_size_reg hd)]
      simp
    refine ⟨hrun, ?_⟩
    rw [hrun]
    simp [newCalls, Res.world, decisionOf]
  · intro hd
    have hrun : lazy BF ifn ofn w = .ret 0 { w with
        fs := w.fs.set (w.resolve ofn) (some (.reg (creatMode (imd &&& ACCESSPERMS) w.umask) []))
        trace := w.trace ++ [.reset ofn (imd &&& ACCESSPERMS)] } := by
      rw [lazy_empty BF hs (lazy_o_size_none hd), if_neg (by decide), reset_none _ _ hd]
    refine ⟨hrun, ?_⟩
    rw [hrun, newCalls_ret]
    rfl

theorem lazy_empty_source_witness :
    lazy 4096 "s" "d" ex_empty_both = .ret 0 ex_empty_both ∧
      decisionOf (newCalls ex_empty_both (lazy 4096 "s" "d" ex_empty_both)) = .Skip :=
  (lazy_empty_source 4096 "s" "d" ex_empty_both 0o644 rfl).1 0o600 rfl

/-- C7 (empty-source truncation): for every source of size 0 and every
destination that is a regular file of size greater than 0, `lazy` returns
0 on the Truncate path; afterwards the destination exists with size 0,
and the temporary path, like every file other than the destination, names
what it named before. -/
theorem lazy_empty_source_truncates (BF : Int) (ifn ofn : String) (w : World) (imd omd : Nat)
    (odata : List Byte) (hs : w.fs (w.resolve ifn) = some (.reg imd []))
    (hd : w.fs (w.resolve ofn) = some (.reg omd odata)) (hne : 0 < odata.length) :
    ∃ w1, lazy BF ifn ofn w = .ret 0 w1 ∧
      decisionOf (newCalls w (lazy BF ifn ofn w)) = .Truncate ∧
      contentOf w1.fs (w.resolve ofn) = some [] ∧
      w1.fs (w.resolve (ofn ++ "~")) = w.fs (w.resolve (ofn ++ "~")) ∧
      ∀ p, p ≠ w.resolve ofn → w1.fs p = w.fs p := by
  have hrun : lazy BF ifn ofn w = .ret 0 { w with
      fs := w.fs.set (w.resolve ofn) (some (.reg omd []))
      trace := w.trace ++ [.reset ofn (imd &&& ACCESSPERMS)] } := by
    rw [lazy_empty BF hs (lazy_o_size_reg hd), if_neg (by omega), reset_reg _ _ hd]
  refine ⟨_, hrun, ?_, ?_, ?_, ?_⟩
  · rw [hrun, newCalls_ret]
    rfl
  · simp [contentOf, FS.set_same]
  · exact FS.set_other _ _ (w.resolve_tilde ofn)
  · intro p hp
    exact FS.set_other _ _ hp

theorem lazy_empty_source_truncates_witness :
    ∃ w1, lazy 4096 "s" "d" ex_empty_full = .ret 0 w1 ∧
      decisionOf (newCalls ex_empty_full (lazy 4096 "s" "d" ex_empty_full)) = .Truncate ∧
      contentOf w1.fs "d" = some [] ∧
      w1.fs ("d" ++ "~") = ex_empty_full.fs ("d" ++ "~") ∧
      ∀ p, p ≠ "d" → w1.fs p = ex_empty_full.fs p :=
  lazy_empty_source_truncates 4096 "s" "d" ex_empty_full 0o644 0o600 [1, 2, 3]
    rfl rfl (by decide)

/-- C8, as stated, fails: called as `lazycopy` with the source at the
temporary path of the destination, the program returns 0 and the source
path no longer exists: `output` has renamed it onto the destination.  And
called as `lazycopy -b 4 ./f f` on a file `f` of ten bytes, where the two
paths are spelt differently and name one file, the program returns 0 and
that file holds four bytes afterwards. -/
theorem main_copy_keeps_source_counterexample :
    (main 0 "lazycopy" [] ["d~", "d"] ex_tmp_source).val? = some 0 ∧
      ex_tmp_source.fs (ex_tmp_source.resolve "d~") = some (.reg 0o644 [1, 2, 3]) ∧
      (main 0 "lazycopy" [] ["d~", "d"] ex_tmp_source).world.fs (ex_tmp_source.resolve "d~")
        = none ∧
      "./f" ≠ "f" ∧ "./f" ≠ "f" ++ "~" ∧ ex_dot.resolve "./f" = ex_dot.resolve "f" ∧
      (main 0 "lazycopy" [(Char.ofNat 98, some "4")] ["./f", "f"] ex_dot).val? = some 0 ∧
      ex_dot.fs (ex_dot.resolve "./f") = some (.reg 0o644 [7, 7, 7, 7, 7, 7, 7, 7, 7, 7]) ∧
      (main 0 "lazycopy" [(Char.ofNat 98, some "4")] ["./f", "f"] ex_dot).world.fs
        (ex_dot.resolve "./f") = some (.reg 0o644 [7, 46, 46, 46]) := by
  decide

/-- C8, amended: when the program is invoked under a name other than
`lazymove`, then for every source path and every destination path such
that the file the source path names is neither the file the destination
path names nor the file the temporary path of the destination names
(paths spelt differently may name one file), after a run that returns the
source path still names the regular file, with the content and mode, that
it named before. -/
theorem main_copy_keeps_source (noconv : Int) (self : String)
    (opts : List (Char × Option String)) (ifn ofn : String) (w w1 : World) (r : Int)
    (hself : self ≠ "lazymove") (h1 : w.resolve ifn ≠ w.resolve ofn)
    (h2 : w.resolve ifn ≠ w.resolve (ofn ++ "~"))
    (hrun : main noconv self opts [ifn, ofn] w = .ret r w1) :
    (∃ md data, w.fs (w.resolve ifn) = some (.reg md data)) ∧
      w1.resolve ifn = w.resolve ifn ∧
      w1.fs (w1.resolve ifn) = w.fs (w.resolve ifn) := by
  obtain ⟨b, w0, _, hlo, _, hl, hres, _, hcopy⟩ := main_ret hrun
  rw [hcopy hself, hres]
  lift b to ℕ using (by omega)
  have hfr := lazy_frame b (by omega) ifn ofn w (w.resolve ifn) h1 h2
  rw [hl] at hfr
  refine ⟨?_, rfl, hfr⟩
  rcases hs : w.fs (w.resolve ifn) with _ | ⟨md, data⟩ | md
  · rw [lazy_src_none _ ofn hs] at hl
    cases hl
  · exact ⟨md, data, rfl⟩
  · rw [lazy_src_dir _ ofn hs] at hl
    cases hl

theorem main_copy_keeps_source_witness :
    (∃ md data, ex_five.fs (ex_five.resolve "s") = some (.reg md data)) ∧
      (main 0 "lazycopy" [(Char.ofNat 98, some "4")] ["s", "d"] ex_five).world.resolve "s"
        = ex_five.resolve "s" ∧
      (main 0 "lazycopy" [(Char.ofNat 98, some "4")] ["s", "d"] ex_five).world.fs
          ((main 0 "lazycopy" [(Char.ofNat 98, some "4")] ["s", "d"] ex_five).world.resolve "s")
        = ex_five.fs (ex_five.resolve "s") :=
  main_copy_keeps_source 0 "lazycopy" [(Char.ofNat 98, some "4")] "s" "d" ex_five
    (main 0 "lazycopy" [(Char.ofNat 98, some "4")] ["s", "d"] ex_five).world
    0 (by decide) (by decide) (by decide) rfl

/-- C9, as stated, fails: called as `lazymove` with the same path as
source and destination, the program returns 0 and the path no longer
exists, whereas the copy-mode run leaves the destination in place.  The
same holds for `lazymove ./g g`, where the two paths are spelt
differently and name one file. -/
theorem main_move_counterexample :
    (main 0 "lazymove" [] ["f", "f"] ex_one).val? = some 0 ∧
      (main 0 "lazycopy" [] ["f", "f"] ex_one).val? = some 0 ∧
      (main 0 "lazymove" [] ["f", "f"] ex_one).world.fs (ex_one.resolve "f") = none ∧
      (main 0 "lazycopy" [] ["f", "f"] ex_one).world.fs (ex_one.resolve "f")
        = some (.reg 0o644 [1, 2, 3]) ∧
      "./g" ≠ "g" ∧ ex_dot.resolve "./g" = ex_dot.resolve "g" ∧
      (main 0 "lazymove" [] ["./g", "g"] ex_dot).val? = some 0 ∧
      (main 0 "lazycopy" [] ["./g", "g"] ex_dot).val? = some 0 ∧
      (main 0 "lazymove" [] ["./g", "g"] ex_dot).world.fs (ex_dot.resolve "g") = none ∧
      (main 0 "lazycopy" [] ["./g", "g"] ex_dot).world.fs (ex_dot.resolve "g")
        = some (.reg 0o644 [1, 2, 3]) := by
  decide

/-- C9, amended: when the program is invoked under the name `lazymove`,
then after every run that returns the source path no longer exists,
whatever the engine decided (Skip, Write or Truncate); the run under any
other name returns the same value after the same calls of the engine, and
the two runs leave every file other than the one the source path names in
the same state, so the destination too when the destination path does not
name the file that the source path names (paths spelt differently may
name one file). -/
theorem main_move (noconv : Int) (opts : List (Char × Option String)) (ifn ofn : String)
    (w w1 : World) (r : Int)
    (hrun : main noconv "lazymove" opts [ifn, ofn] w = .ret r w1) :
    w1.resolve = w.resolve ∧
    w1.fs (w1.resolve ifn) = none ∧
    ∀ self, self ≠ "lazymove" →
      ∃ w0, main noconv self opts [ifn, ofn] w = .ret r w0 ∧
        w0.resolve = w.resolve ∧
        w1.trace = w0.trace ∧
        (∀ p, p ≠ w.resolve ifn → w1.fs p = w0.fs p) ∧
        (w.resolve ifn ≠ w.resolve ofn → w1.fs (w1.resolve ofn) = w0.fs (w0.resolve ofn)) := by
  obtain ⟨b, w0, hg, hlo, hhi, hl, hres, hmove, _⟩ := main_ret hrun
  obtain ⟨_, hw1⟩ := hmove rfl
  subst hw1
  refine ⟨hres, ?_, ?_⟩
  · show (w0.fs.set (w.resolve ifn) none) (w0.resolve ifn) = none
    rw [hres]
    exact FS.set_same _ _ _
  intro self hself
  refine ⟨w0, main_copy_of_lazy hself hg hlo hhi hl, hres, rfl, ?_, ?_⟩
  · intro p hp
    exact FS.set_other _ _ hp
  · intro hio
    show (w0.fs.set (w.resolve ifn) none) (w0.resolve ofn) = w0.fs (w0.resolve ofn)
    rw [hres]
    exact FS.set_other _ _ (fun h => hio h.symm)

theorem main_move_witness :
    (main 0 "lazymove" [] ["s", "d"] ex_equal).world.resolve = ex_equal.resolve ∧
    (main 0 "lazymove" [] ["s", "d"] ex_equal).world.fs
      ((main 0 "lazymove" [] ["s", "d"] ex_equal).world.resolve "s") = none ∧
    ∀ self, self ≠ "lazymove" →
      ∃ w0, main 0 self [] ["s", "d"] ex_equal = .ret 0 w0 ∧
        w0.resolve = ex_equal.resolve ∧
        (main 0 "lazymove" [] ["s", "d"] ex_equal).world.trace = w0.trace ∧
        (∀ p, p ≠ ex_equal.resolve "s" →
          (main 0 "lazymove" [] ["s", "d"] ex_equal).world.fs p = w0.fs p) ∧
        (ex_equal.resolve "s" ≠ ex_equal.resolve "d" →
          (main 0 "lazymove" [] ["s", "d"] ex_equal).world.fs
            ((main 0 "lazymove" [] ["s", "d"] ex_equal).world.resolve "d")
            = w0.fs (w0.resolve "d")) :=
  main_move 0 [] "s" "d" ex_equal (main 0 "lazymove" [] ["s", "d"] ex_equal).world 0 rfl

/-- C10 (atomic replace): for every cutoff in [4, 131072] and every run of
`lazy` that takes the Write path and returns, `output` was called on the
buffer and length that `load` gave for the source; afterwards the
destination is a regular file holding exactly the first `n` bytes of that
buffer, and nothing exists at the temporary path, whatever was there
before. -/
theorem lazy_atomic_replace (BF : Int) (hBF : 4 ≤ BF ∧ BF ≤ 131072) (ifn ofn : String)
    (w w1 : World) (r : Int) (hrun : lazy BF ifn ofn w = .ret r w1)
    (hw : decisionOf (newCalls w (lazy BF ifn ofn w)) = .Write) :
    ∃ bf n mode wl, load ifn (BF + 1).toNat (BF + 1) true w = .ret (bf, n) wl ∧
      Call.output bf n ofn mode ∈ newCalls w (lazy BF ifn ofn w) ∧
      contentOf w1.fs (w.resolve ofn) = some (bf.take n.toNat) ∧
      w1.fs (w.resolve (ofn ++ "~")) = none := by
  obtain ⟨hlo, _⟩ := hBF
  lift BF to ℕ using (by omega)
  rcases hs : w.fs (w.resolve ifn) with _ | ⟨imd, idata⟩ | md
  · rw [lazy_src_none _ ofn hs] at hrun
    cases hrun
  · have hnd : ∀ md, w.fs (w.resolve ofn) ≠ some (.dir md) := by
      intro md hd
      rw [lazy_dst_dir _ hs hd] at hrun
      cases hrun
    by_cases hu : UpToDate BF idata (w.fs (w.resolve ofn))
    · obtain ⟨cs, hskip, hdec⟩ := lazy_skip_of_upToDate BF (by omega) hs hu
      rw [hskip, newCalls_ret, hdec] at hw
      cases hw
    · by_cases hne : idata = []
      · subst hne
        obtain ⟨htr, md, hres⟩ := lazy_truncate BF hs hnd hu
        rw [htr, hres, newCalls_ret] at hw
        cases hw
      · obtain ⟨cs, ibf, xi, hload, hwr, hxi, hxb, _, hcs⟩ := lazy_write BF (by omega) hs hne hnd hu
        have hcalls : newCalls w (lazy BF ifn ofn w) =
            cs ++ [.output ibf xi ofn (imd &&& ACCESSPERMS)] := by
          rw [hwr]
          exact newCalls_of_trace _ _ _ (by rw [output_trace]; simp)
        rw [hwr] at hrun
        obtain ⟨_, hw1⟩ :=
          output_post (w := { w with trace := w.trace ++ cs }) hxi hxb hnd hrun
        refine ⟨ibf, xi, imd &&& ACCESSPERMS, _, hload, ?_, ?_, ?_⟩
        · rw [hcalls]
          simp
        · rw [hw1]
          simp [contentOf, FS.set_other _ _ (fun h => w.resolve_tilde ofn h.symm), FS.set_same]
        · rw [hw1]
          exact FS.set_same _ _ _
  · rw [lazy_src_dir _ ofn hs] at hrun
    cases hrun

theorem lazy_atomic_replace_witness :
    ∃ bf n mode wl, load "s" (4 + 1 : Int).toNat (4 + 1) true ex_stale = .ret (bf, n) wl ∧
      Call.output bf n "d" mode ∈ newCalls ex_stale (lazy 4 "s" "d" ex_stale) ∧
      contentOf (lazy 4 "s" "d" ex_stale).world.fs "d" = some (bf.take n.toNat) ∧
      (lazy 4 "s" "d" ex_stale).world.fs ("d" ++ "~") = none :=
  lazy_atomic_replace 4 (by decide) "s" "d" ex_stale (lazy 4 "s" "d" ex_stale).world
    0 rfl (by decide)

/-- C11, the input on which the code leaves the claim: `-b 4294967300`.
The text is the decimal numeral of 4294967300, which is not in
[4, 131072], and `strtoul` converts it without an error; `valueof`
returns that `unsigned long` as an `int`, which is 4, so `main` admits
the cutoff and `lazy` runs and writes the destination.  For `131073`,
`4294967295` and `18446744073709551616`, which are not in [4, 131072]
either, `main` exits with the usage status and nothing is called. -/
theorem main_cutoff_validation_failing_input :
    toString (4294967300 : Nat) = "4294967300" ∧
      ¬ (4 ≤ (4294967300 : Nat) ∧ (4294967300 : Nat) ≤ 131072) ∧
      strtoul 0 "4294967300".toList 10 = (4294967300, 0) ∧
      valueof 0 "4294967300" = (4, 0) ∧
      (main 0 "lazycopy" [(Char.ofNat 98, some "4294967300")] ["s", "d"] ex_five).val?
        = some 0 ∧
      decisionOf (newCalls ex_five
        (main 0 "lazycopy" [(Char.ofNat 98, some "4294967300")] ["s", "d"] ex_five)) = .Write ∧
      ex_five.fs (ex_five.resolve "d") = none ∧
      (main 0 "lazycopy" [(Char.ofNat 98, some "4294967300")] ["s", "d"] ex_five).world.fs
        (ex_five.resolve "d") = some (.reg 0o644 [1, 46, 46, 46]) ∧
      (∀ text ∈ ["131073", "4294967295", "18446744073709551616"],
        (main 0 "lazycopy" [(Char.ofNat 98, some text)] ["s", "d"] ex_five).status?
          = some EX_USAGE ∧
        newCalls ex_five
          (main 0 "lazycopy" [(Char.ofNat 98, some text)] ["s", "d"] ex_five) = []) := by
  decide

/-- C12, as stated, fails: with a directory at the source path, or at the
destination path, the run exits with `EX_NOINPUT`, the very status of a
missing source, and not with `EX_OSERR`. -/
theorem lazy_type_error_status_counterexample :
    (lazy 4096 "s" "d" ex_dir_source).status? = some EX_NOINPUT ∧
      (lazy 4096 "s" "d" ex_dir_dest).status? = some EX_NOINPUT ∧
      (lazy 4096 "s" "d" ex_nothing).status? = some EX_NOINPUT ∧
      (main 0 "lazycopy" [] ["s", "d"] ex_dir_source).status? = some EX_NOINPUT ∧
      (main 0 "lazycopy" [] ["s", "d"] ex_nothing).status? = some EX_NOINPUT ∧
      EX_NOINPUT ≠ EX_OSERR := by
  decide

/-- C12, amended: when the source exists but is not a regular file, or the
destination exists but is not a regular file, the run terminates with the
missing-input status `EX_NOINPUT`, which is also the status of a run
whose source does not exist; that status differs from the usage status
and from the OS-error status. -/
theorem lazy_type_error_status (BF : Int) (ifn ofn : String) (w : World)
    (h : isDir (w.fs (w.resolve ifn)) = true ∨ isDir (w.fs (w.resolve ofn)) = true) :
    (lazy BF ifn ofn w).status? = some EX_NOINPUT ∧
    (∀ w0 : World, w0.fs (w0.resolve ifn) = none →
      (lazy BF ifn ofn w0).status? = some EX_NOINPUT) ∧
    EX_NOINPUT ≠ EX_USAGE ∧ EX_NOINPUT ≠ EX_OSERR := by
  refine ⟨?_, ?_, by decide, by decide⟩
  · rw [lazy_precondition_exit BF ifn ofn w (Or.inr h)]
    rfl
  · intro w0 h0
    rw [lazy_src_none BF ofn h0]
    rfl

theorem lazy_type_error_status_witness :
    (lazy 4096 "s" "d" ex_dir_dest).status? = some EX_NOINPUT ∧
    (∀ w0 : World, w0.fs (w0.resolve "s") = none →
      (lazy 4096 "s" "d" w0).status? = some EX_NOINPUT) ∧
    EX_NOINPUT ≠ EX_USAGE ∧ EX_NOINPUT ≠ EX_OSERR :=
  lazy_type_error_status 4096 "s" "d" ex_dir_dest (Or.inr rfl)

/-- C13, as stated, fails: after a Write over a stale temporary file the
destination has the mode of that file; after a Write with nothing at the
temporary path it has the source's bits less those of the umask; after a
Truncate of an existing destination it keeps the mode it had. -/
theorem lazy_permission_bits_counterexample :
    decisionOf (newCalls ex_stale (lazy 4 "s" "d" ex_stale)) = .Write ∧
      ex_stale.fs "s" = some (.reg 0o644 [1, 2, 3, 4, 5]) ∧
      (lazy 4 "s" "d" ex_stale).world.fs "d" = some (.reg 0o400 [1, 46, 46, 46]) ∧
      decisionOf (newCalls ex_wide (lazy 4 "s" "d" ex_wide)) = .Write ∧
      ex_wide.fs "s" = some (.reg 0o666 [1, 2, 3]) ∧
      (lazy 4 "s" "d" ex_wide).world.fs "d" = some (.reg 0o644 [1, 2, 3]) ∧
      decisionOf (newCalls ex_empty_full (lazy 4 "s" "d" ex_empty_full)) = .Truncate ∧
      ex_empty_full.fs "s" = some (.reg 0o644 []) ∧
      (lazy 4 "s" "d" ex_empty_full).world.fs "d" = some (.reg 0o600 []) := by
  decide

/-- C13, amended: after a run of `lazy` that returns on the Write path, the
destination has the mode of the regular file that was at the temporary
path, if there was one, and else the source's permission bits
(`st_mode & ACCESSPERMS`) less the bits of the umask, which are the
source's permission bits when the umask clears none of them; after a
run that returns on the Truncate path over an existing destination, the
destination keeps the mode it had. -/
theorem lazy_permission_bits (BF : Int) (hBF : 4 ≤ BF ∧ BF ≤ 131072) (ifn ofn : String)
    (w w1 : World) (r : Int) (imd : Nat) (idata : List Byte)
    (hs : w.fs (w.resolve ifn) = some (.reg imd idata)) (hrun : lazy BF ifn ofn w = .ret r w1) :
    (decisionOf (newCalls w (lazy BF ifn ofn w)) = .Write →
      (∀ smd sdata, w.fs (w.resolve (ofn ++ "~")) = some (.reg smd sdata) →
        ∃ data, w1.fs (w.resolve ofn) = some (.reg smd data)) ∧
      (w.fs (w.resolve (ofn ++ "~")) = none →
        ∃ data, w1.fs (w.resolve ofn) = some (.reg (creatMode (imd &&& ACCESSPERMS) w.umask) data)) ∧
      (w.fs (w.resolve (ofn ++ "~")) = none → (imd &&& ACCESSPERMS) &&& w.umask = 0 →
        ∃ data, w1.fs (w.resolve ofn) = some (.reg (imd &&& ACCESSPERMS) data))) ∧
    (decisionOf (newCalls w (lazy BF ifn ofn w)) = .Truncate →
      ∀ omd odata, w.fs (w.resolve ofn) = some (.reg omd odata) → w1.fs (w.resolve ofn) = some (.reg omd [])) := by
  obtain ⟨hlo, _⟩ := hBF
  lift BF to ℕ using (by omega)
  have hnd := (lazy_ret_pre hrun).2
  obtain ⟨hskip, htrunc, hwrite⟩ := lazy_decision BF (by omega) hs hnd
  constructor
  · intro hdec
    by_cases hu : UpToDate BF idata (w.fs (w.resolve ofn))
    · rw [hskip hu] at hdec
      cases hdec
    · by_cases hne : idata = []
      · rw [htrunc hu hne] at hdec
        cases hdec
      · obtain ⟨_, _, hfs⟩ := lazy_write_post BF (by omega) hs hne hu hrun
        have hof : w1.fs (w.resolve ofn) = some (.reg (tmpMode w ofn (imd &&& ACCESSPERMS))
            (written BF idata)) := by
          rw [hfs, FS.set_other _ _ (fun h => w.resolve_tilde ofn h.symm), FS.set_same]
        refine ⟨?_, ?_, ?_⟩
        · intro smd sdata hx
          exact ⟨written BF idata, by rw [hof]; simp [tmpMode, hx]⟩
        · intro hx
          exact ⟨written BF idata, by rw [hof]; simp [tmpMode, hx]⟩
        · intro hx hum
          exact ⟨written BF idata,
            by rw [hof]; simp [tmpMode, hx, creatMode_of_disjoint _ _ hum]⟩
  · intro hdec omd odata hd
    by_cases hu : UpToDate BF idata (w.fs (w.resolve ofn))
    · rw [hskip hu] at hdec
      cases hdec
    · by_cases hne : idata = []
      · subst hne
        have hz : ¬ ((odata.length : Int) = 0) := by
          intro hz
          have : odata = [] := List.length_eq_zero.mp (by omega)
          subst this
          exact hu (by simp [UpToDate, hd])
        rw [lazy_empty _ hs (lazy_o_size_reg hd), if_neg hz, reset_reg _ _ hd] at hrun
        injection hrun with _ h2
        subst h2
        exact FS.set_same _ _ _
      · rw [hwrite hu hne] at hdec
        cases hdec

theorem lazy_permission_bits_witness :
    ∃ data, (lazy 4 "s" "d" ex_five).world.fs "d" = some (.reg (0o644 &&& ACCESSPERMS) data) :=
  ((lazy_permission_bits 4 (by decide) "s" "d" ex_five (lazy 4 "s" "d" ex_five).world 0
    0o644 [1, 2, 3, 4, 5] rfl rfl).1 (by decide)).2.2 rfl (by decide)

/-- C14 (no mutation on a fatal precondition failure): if the source does
not exist, the source is not a regular file, or the destination exists
and is not a regular file, then `lazy` exits with the world as it was: no
file is changed and neither `load`, `output` nor `reset` is called; and
`main`, under any name, `lazymove` included, exits with the world as it
was, so the source is not removed. -/
theorem lazy_precondition_failure (BF : Int) (ifn ofn : String) (w : World)
    (h : w.fs (w.resolve ifn) = none ∨ isDir (w.fs (w.resolve ifn)) = true ∨ isDir (w.fs (w.resolve ofn)) = true) :
    lazy BF ifn ofn w = .exit EX_NOINPUT w ∧
    ∀ (noconv : Int) (self : String) (opts : List (Char × Option String)),
      ∃ s, main noconv self opts [ifn, ofn] w = .exit s w := by
  refine ⟨lazy_precondition_exit BF ifn ofn w h, ?_⟩
  intro noconv self opts
  rcases main_exit_of_lazy_exit noconv self opts ifn ofn w EX_NOINPUT
      (fun b => lazy_precondition_exit b ifn ofn w h) with hm | hm
  · exact ⟨_, hm⟩
  · exact ⟨_, hm⟩

theorem lazy_precondition_failure_witness :
    lazy 4096 "s" "d" ex_dir_dest = .exit EX_NOINPUT ex_dir_dest ∧
    ∀ (noconv : Int) (self : String) (opts : List (Char × Option String)),
      ∃ s, main noconv self opts ["s", "d"] ex_dir_dest = .exit s ex_dir_dest :=
  lazy_precondition_failure 4096 "s" "d" ex_dir_dest (Or.inr (Or.inr rfl))

/-- C15 (exact copy of small files): for every cutoff in [4, 131072], every
source with 0 < size <= cutoff and every destination that is absent or a
regular file, the run returns when the temporary path is not a directory;
after a run that returns the destination holds the content of the source
byte for byte; and the run is a Skip if and only if the destination held
the content of the source before. -/
theorem lazy_small_exact_copy (BF : Nat) (hBF : 4 ≤ BF ∧ BF ≤ 131072) (ifn ofn : String)
    (w : World) (imd : Nat) (idata : List Byte) (hs : w.fs (w.resolve ifn) = some (.reg imd idata))
    (hpos : 0 < idata.length) (hle : idata.length ≤ BF) (hd : isDir (w.fs (w.resolve ofn)) = false) :
    (isDir (w.fs (w.resolve (ofn ++ "~"))) = false → ∃ w1, lazy BF ifn ofn w = .ret 0 w1) ∧
    (∀ r w1, lazy BF ifn ofn w = .ret r w1 → contentOf w1.fs (w.resolve ofn) = some idata) ∧
    (decisionOf (newCalls w (lazy BF ifn ofn w)) = .Skip ↔
      contentOf w.fs (w.resolve ofn) = some idata) := by
  have hBF3 : 3 ≤ BF := by omega
  have hnd := isDir_false hd
  have hne : idata ≠ [] := List.length_pos.mp hpos
  have hiff : ∀ fs : FS, UpToDate BF idata (fs (w.resolve ofn)) ↔
      contentOf fs (w.resolve ofn) = some idata :=
    fun fs => upToDate_short_iff (fs (w.resolve ofn)) hle
  obtain ⟨hskip, hwrite⟩ := lazy_summary BF hBF3 hs hne hnd
  refine ⟨fun hx => lazy_returns BF hBF3 hs hnd hx, ?_, ?_⟩
  · intro r w1 hrun
    exact (hiff w1.fs).mp (lazy_post BF hBF3 hs hrun).2
  · constructor
    · intro hdec
      by_cases hu : UpToDate BF idata (w.fs (w.resolve ofn))
      · exact (hiff w.fs).mp hu
      · rw [(hwrite hu).1] at hdec
        cases hdec
    · intro hc
      exact (hskip ((hiff w.fs).mpr hc)).1

theorem lazy_small_exact_copy_witness :
    (isDir (ex_mismatch.fs ("d" ++ "~")) = false →
      ∃ w1, lazy ((4 : Nat) : Int) "s" "d" ex_mismatch = .ret 0 w1) ∧
    (∀ r w1, lazy ((4 : Nat) : Int) "s" "d" ex_mismatch = .ret r w1 →
      contentOf w1.fs "d" = some [1, 2, 3]) ∧
    (decisionOf (newCalls ex_mismatch (lazy ((4 : Nat) : Int) "s" "d" ex_mismatch)) = .Skip ↔
      contentOf ex_mismatch.fs "d" = some [1, 2, 3]) :=
  lazy_small_exact_copy 4 (by decide) "s" "d" ex_mismatch 0o644 [1, 2, 3] rfl
    (by decide) (by decide) rfl

/-- C16 (postcondition for long sources): for every cutoff in [4, 131072],
every source longer than the cutoff and every destination that is absent
or a regular file, the run returns when the temporary path is not a
directory; after a run that returns the destination is a regular file of
at least cutoff bytes whose first cutoff bytes are the first cutoff-3
bytes of the source and then the marker; and when the run was a Write the
destination is exactly those cutoff bytes. -/
theorem lazy_long_post (BF : Nat) (hBF : 4 ≤ BF ∧ BF ≤ 131072) (ifn ofn : String)
    (w : World) (imd : Nat) (idata : List Byte) (hs : w.fs (w.resolve ifn) = some (.reg imd idata))
    (hlong : BF < idata.length) (hd : isDir (w.fs (w.resolve ofn)) = false) :
    (isDir (w.fs (w.resolve (ofn ++ "~"))) = false → ∃ w1, lazy BF ifn ofn w = .ret 0 w1) ∧
    (∀ r w1, lazy BF ifn ofn w = .ret r w1 →
      ∃ md odata, w1.fs (w.resolve ofn) = some (.reg md odata) ∧ BF ≤ odata.length ∧
        odata.take BF = idata.take (BF - 3) ++ [46, 46, 46] ∧
        (decisionOf (newCalls w (lazy BF ifn ofn w)) = .Write →
          odata = idata.take (BF - 3) ++ [46, 46, 46] ∧ odata.length = BF)) := by
  have hBF3 : 3 ≤ BF := by omega
  have hnd := isDir_false hd
  have hne : idata ≠ [] := by
    intro h
    simp [h] at hlong
  obtain ⟨hskip, hwrite⟩ := lazy_summary BF hBF3 hs hne hnd
  refine ⟨fun hx => lazy_returns BF hBF3 hs hnd hx, ?_⟩
  intro r w1 hrun
  have hu1 := (lazy_post BF hBF3 hs hrun).2
  unfold UpToDate at hu1
  rw [if_neg (by omega)] at hu1
  obtain ⟨md, odata, hof, hsz, htk⟩ := hu1
  refine ⟨md, odata, hof, by omega, htk, ?_⟩
  intro hdec
  by_cases hu : UpToDate BF idata (w.fs (w.resolve ofn))
  · rw [(hskip hu).1] at hdec
    cases hdec
  · obtain ⟨_, _, hfs⟩ := lazy_write_post BF hBF3 hs hne hu hrun
    have hof2 : w1.fs (w.resolve ofn) = some (.reg (tmpMode w ofn (imd &&& ACCESSPERMS))
        (written BF idata)) := by
      rw [hfs, FS.set_other _ _ (fun h => w.resolve_tilde ofn h.symm), FS.set_same]
    rw [hof] at hof2
    injection hof2 with h1
    injection h1 with _ h2
    have hw : written BF idata = idata.take (BF - 3) ++ [46, 46, 46] := by
      unfold written
      rw [if_neg (by omega)]
    rw [h2, hw]
    exact ⟨rfl, (marked_length idata BF hBF3 hlong).1⟩

theorem lazy_long_post_witness :
    (isDir (ex_differ.fs ("d" ++ "~")) = false →
      ∃ w1, lazy ((4 : Nat) : Int) "s" "d" ex_differ = .ret 0 w1) ∧
    (∀ r w1, lazy ((4 : Nat) : Int) "s" "d" ex_differ = .ret r w1 →
      ∃ md odata, w1.fs "d" = some (.reg md odata) ∧ 4 ≤ odata.length ∧
        odata.take 4 = ([7, 7, 7, 7, 7, 7, 7, 7, 7, 7] : List Byte).take (4 - 3) ++ [46, 46, 46] ∧
        (decisionOf (newCalls ex_differ (lazy ((4 : Nat) : Int) "s" "d" ex_differ)) = .Write →
          odata = ([7, 7, 7, 7, 7, 7, 7, 7, 7, 7] : List Byte).take (4 - 3) ++ [46, 46, 46] ∧
            odata.length = 4)) :=
  lazy_long_post 4 (by decide) "s" "d" ex_differ 0o644 [7, 7, 7, 7, 7, 7, 7, 7, 7, 7] rfl
    (by decide) rfl

/-- C17 (blindness beyond the cutoff): for every cutoff in [4, 131072], two
worlds that differ only in the regular file at the source path, the two
sources having the same length greater than the cutoff and the same
first cutoff-3 bytes, and a destination path that does not name the file
the source path names:
the two runs of `lazy` show the same decision, both return or both exit,
and leave the same content at the destination; and after a run on the
first source that returns, a run on the second source over the
destination as the first run left it returns 0 on the Skip path and
changes no file. -/
theorem lazy_blind_beyond_cutoff (BF : Nat) (hBF : 4 ≤ BF ∧ BF ≤ 131072) (ifn ofn : String)
    (w w' : World) (imd imd' : Nat) (S S' : List Byte)
    (hs : w.fs (w.resolve ifn) = some (.reg imd S))
    (hs' : w'.fs (w'.resolve ifn) = some (.reg imd' S'))
    (hlen : S'.length = S.length) (hlong : BF < S.length)
    (hagree : S'.take (BF - 3) = S.take (BF - 3))
    (hres : w'.resolve = w.resolve) (hio : w.resolve ifn ≠ w.resolve ofn)
    (hsame : ∀ p, p ≠ w.resolve ifn → w'.fs p = w.fs p) :
    decisionOf (newCalls w (lazy BF ifn ofn w))
      = decisionOf (newCalls w' (lazy BF ifn ofn w')) ∧
    (lazy BF ifn ofn w).val? = (lazy BF ifn ofn w').val? ∧
    contentOf (lazy BF ifn ofn w).world.fs (w.resolve ofn)
      = contentOf (lazy BF ifn ofn w').world.fs (w.resolve ofn) ∧
    (∀ r w1 w2, lazy BF ifn ofn w = .ret r w1 →
      w2.fs (w2.resolve ifn) = some (.reg imd' S') →
      w2.fs (w2.resolve ofn) = w1.fs (w.resolve ofn) →
      decisionOf (newCalls w2 (lazy BF ifn ofn w2)) = .Skip ∧
        ∃ w3, lazy BF ifn ofn w2 = .ret 0 w3 ∧ w3.fs = w2.fs) := by
  have hBF3 : 3 ≤ BF := by omega
  have hri : w'.resolve ifn = w.resolve ifn := congrFun hres ifn
  have hro : w'.resolve ofn = w.resolve ofn := congrFun hres ofn
  have hrx : w'.resolve (ofn ++ "~") = w.resolve (ofn ++ "~") := congrFun hres (ofn ++ "~")
  rw [hri] at hs'
  have hsr : w'.fs (w'.resolve ifn) = some (.reg imd' S') := by rw [hri]; exact hs'
  have hdst : w'.fs (w.resolve ofn) = w.fs (w.resolve ofn) :=
    hsame (w.resolve ofn) (fun h => hio h.symm)
  have hcong : ∀ dst, UpToDate BF S dst ↔ UpToDate BF S' dst :=
    fun dst => upToDate_long_congr dst hlong hlen hagree
  have hne : S ≠ [] := by
    intro h
    simp [h] at hlong
  have hne' : S' ≠ [] := by
    intro h
    rw [h] at hlen
    simp at hlen
    omega
  have hlater : ∀ r w1 w2, lazy BF ifn ofn w = .ret r w1 →
      w2.fs (w2.resolve ifn) = some (.reg imd' S') →
      w2.fs (w2.resolve ofn) = w1.fs (w.resolve ofn) →
      decisionOf (newCalls w2 (lazy BF ifn ofn w2)) = .Skip ∧
        ∃ w3, lazy BF ifn ofn w2 = .ret 0 w3 ∧ w3.fs = w2.fs := by
    intro r w1 w2 hrun hs2 hd2
    have hu1 := (lazy_post BF hBF3 hs hrun).2
    have hu2 : UpToDate BF S' (w2.fs (w2.resolve ofn)) := by
      rw [hd2]
      exact (hcong _).mp hu1
    obtain ⟨cs, hrun2, hskip⟩ := lazy_skip_of_upToDate BF hBF3 hs2 hu2
    refine ⟨?_, _, hrun2, rfl⟩
    rw [hrun2, newCalls_ret]
    exact hskip
  have hboth : decisionOf (newCalls w (lazy BF ifn ofn w))
        = decisionOf (newCalls w' (lazy BF ifn ofn w')) ∧
      (lazy BF ifn ofn w).val? = (lazy BF ifn ofn w').val? ∧
      contentOf (lazy BF ifn ofn w).world.fs (w.resolve ofn)
        = contentOf (lazy BF ifn ofn w').world.fs (w.resolve ofn) := by
    by_cases hdir : ∃ md, w.fs (w.resolve ofn) = some (.dir md)
    · -- both runs exit at once
      obtain ⟨md, hd⟩ := hdir
      rw [lazy_dst_dir _ hs hd, lazy_dst_dir _ hsr (by rw [hro]; exact hdst.trans hd)]
      refine ⟨by simp [newCalls, Res.world], rfl, ?_⟩
      simp only [Res.world, contentOf, hdst]
    · have hnd : ∀ md, w.fs (w.resolve ofn) ≠ some (.dir md) := fun md h => hdir ⟨md, h⟩
      have hnd' : ∀ md, w'.fs (w'.resolve ofn) ≠ some (.dir md) := by
        intro md
        rw [hro, hdst]
        exact hnd md
      obtain ⟨hskip, hwrite⟩ := lazy_summary BF hBF3 hs hne hnd
      obtain ⟨hskip', hwrite'⟩ := lazy_summary BF hBF3 hsr hne' hnd'
      rw [hro] at hskip' hwrite'
      rw [hrx] at hwrite'
      have hxdir : isDir (w'.fs (w.resolve (ofn ++ "~"))) = isDir (w.fs (w.resolve (ofn ++ "~"))) := by
        by_cases hx : w.resolve (ofn ++ "~") = w.resolve ifn
        · rw [hx, hs, hs']
          rfl
        · rw [hsame _ hx]
      by_cases hu : UpToDate BF S (w.fs (w.resolve ofn))
      · -- both runs skip
        have hu' : UpToDate BF S' (w'.fs (w.resolve ofn)) := by
          rw [hdst]
          exact (hcong _).mp hu
        obtain ⟨h1, h2, h3⟩ := hskip hu
        obtain ⟨h1', h2', h3'⟩ := hskip' hu'
        refine ⟨by rw [h1, h1'], by rw [h2, h2'], ?_⟩
        rw [h3, h3', contentOf, contentOf, hdst]
      · -- both runs write
        have hu' : ¬ UpToDate BF S' (w'.fs (w.resolve ofn)) := by
          rw [hdst]
          exact fun h => hu ((hcong _).mpr h)
        obtain ⟨h1, hdirc, hreg⟩ := hwrite hu
        obtain ⟨h1', hdirc', hreg'⟩ := hwrite' hu'
        refine ⟨by rw [h1, h1'], ?_⟩
        cases hx : isDir (w.fs (w.resolve (ofn ++ "~")))
        · have hx' : isDir (w'.fs (w.resolve (ofn ++ "~"))) = false := hxdir.trans hx
          obtain ⟨h2, h3⟩ := hreg hx
          obtain ⟨h2', h3'⟩ := hreg' hx'
          refine ⟨by rw [h2, h2'], ?_⟩
          rw [h3, h3']
          simp only [contentOf, FS.set_other _ _ (fun h => w.resolve_tilde ofn h.symm),
            FS.set_same, written_long_congr hlong hlen hagree]
        · have hx' : isDir (w'.fs (w.resolve (ofn ++ "~"))) = true := hxdir.trans hx
          obtain ⟨h2, h3⟩ := hdirc hx
          obtain ⟨h2', h3'⟩ := hdirc' hx'
          refine ⟨by rw [h2, h2'], ?_⟩
          rw [h3, h3', contentOf, contentOf, hdst]
  exact ⟨hboth.1, hboth.2.1, hboth.2.2, hlater⟩

theorem lazy_blind_beyond_cutoff_witness :
    decisionOf (newCalls ex_differ (lazy ((4 : Nat) : Int) "s" "d" ex_differ))
      = decisionOf (newCalls ex_differ_too (lazy ((4 : Nat) : Int) "s" "d" ex_differ_too)) ∧
    (lazy ((4 : Nat) : Int) "s" "d" ex_differ).val?
      = (lazy ((4 : Nat) : Int) "s" "d" ex_differ_too).val? ∧
    contentOf (lazy ((4 : Nat) : Int) "s" "d" ex_differ).world.fs "d"
      = contentOf (lazy ((4 : Nat) : Int) "s" "d" ex_differ_too).world.fs "d" ∧
    (∀ r w1 w2, lazy ((4 : Nat) : Int) "s" "d" ex_differ = .ret r w1 →
      w2.fs (w2.resolve "s") = some (.reg 0o600 [7, 1, 2, 3, 4, 5, 6, 7, 8, 9]) →
      w2.fs (w2.resolve "d") = w1.fs "d" →
      decisionOf (newCalls w2 (lazy ((4 : Nat) : Int) "s" "d" w2)) = .Skip ∧
        ∃ w3, lazy ((4 : Nat) : Int) "s" "d" w2 = .ret 0 w3 ∧ w3.fs = w2.fs) :=
  lazy_blind_beyond_cutoff 4 (by decide) "s" "d" ex_differ ex_differ_too 0o644 0o600
    [7, 7, 7, 7, 7, 7, 7, 7, 7, 7] [7, 1, 2, 3, 4, 5, 6, 7, 8, 9] rfl rfl rfl (by decide) rfl
    rfl (by decide) (by
      intro p hp
      simp only [ex_differ, ex_differ_too, World.ofList, List.lookup]
      have h1 : (p == "s") = false := by simpa using hp
      rw [h1])

/-- C18 (buffer safety under the validated cutoff): for every `BF_SIZE` in
[4, 0x20000], every pair of paths and every world in which no access has
fallen outside a buffer, none does in the run of `lazy`: not the `read`
into `ibf`, an array of `BF_SIZE + 1` bytes, nor the one into `obf`, an
array of `BF_SIZE` bytes, not the store of the marker at offset `m - 4`
of `ibf`, not the `memcmp` of `xi` bytes of the two buffers, which reads
initialised bytes only, and not the `write` of `xi` bytes of `ibf` in
`output`.  So it is in every run of `main`, whatever the options and
operands.  The length `load` returns for a regular source is between 0
and `BF_SIZE` and within the bytes `ibf` holds, which are at most
`BF_SIZE + 1`, and the length it returns for a regular destination is
between 0 and `BF_SIZE` and is the number of bytes `obf` holds.  The
bounds of the cutoff are needed: with cutoff 2 and a source of five bytes
the marker is stored before the start of `ibf`. -/
theorem lazy_buffer_safety (BF : Int) (hBF : 4 ≤ BF ∧ BF ≤ 0x20000) (ifn ofn : String)
    (w : World) (hw : w.overrun = false) :
    (lazy BF ifn ofn w).world.overrun = false ∧
    (∀ (noconv : Int) (self : String) (opts : List (Char × Option String))
      (args : List String), (main noconv self opts args w).world.overrun = false) ∧
    (∀ imd idata, w.fs (w.resolve ifn) = some (.reg imd idata) →
      ∃ ibf xi w1, load ifn (BF + 1).toNat (BF + 1) true w = .ret (ibf, xi) w1 ∧
        w1.overrun = false ∧ 0 ≤ xi ∧ xi ≤ BF ∧ (ibf.length : Int) ≤ BF + 1 ∧
        xi ≤ ibf.length ∧
        ∀ omd odata, w1.fs (w1.resolve ofn) = some (.reg omd odata) →
          ∃ obf xo w2, load ofn BF.toNat BF false w1 = .ret (obf, xo) w2 ∧
            w2.overrun = false ∧ 0 ≤ xo ∧ xo ≤ BF ∧ xo = obf.length) ∧
    (ex_five.overrun = false ∧ (lazy 2 "s" "d" ex_five).world.overrun = true) := by
  obtain ⟨hlo, hhi⟩ := hBF
  lift BF to ℕ using (by omega)
  refine ⟨?_, ?_, ?_, rfl, by decide⟩
  · rw [(lazy_resolve BF (by omega) ifn ofn w).2.2, hw]
  · intro noconv self opts args
    rw [main_overrun, hw]
  · intro imd idata hs
    have hdst : ∀ (w1 : World), w1.overrun = false →
        ∀ omd odata, w1.fs (w1.resolve ofn) = some (.reg omd odata) →
          ∃ obf xo w2, load ofn (BF : Int).toNat (BF : Int) false w1 = .ret (obf, xo) w2 ∧
            w2.overrun = false ∧ 0 ≤ xo ∧ xo ≤ (BF : Int) ∧ xo = obf.length := by
      intro w1 hw1 omd odata hd
      refine ⟨_, _, _, load_dst BF hd, hw1, by omega, ?_, rfl⟩
      simp only [List.length_take]
      omega
    by_cases hlen : BF < idata.length
    · refine ⟨_, _, _, load_src_long BF (by omega) hs hlen, hw, by omega, le_refl _, ?_, ?_,
        hdst _ hw⟩
      · simp only [ELLIPSIS, List.length_append, List.length_take, List.length_cons,
          List.length_nil]
        omega
      · simp only [ELLIPSIS, List.length_append, List.length_take, List.length_cons,
          List.length_nil]
        omega
    · exact ⟨_, _, _, load_src_short BF hs (by omega), hw, by omega, by omega, by omega,
        le_refl _, hdst _ hw⟩

theorem lazy_buffer_safety_witness :
    (lazy 4 "s" "d" ex_differ).world.overrun = false ∧
    (∀ (noconv : Int) (self : String) (opts : List (Char × Option String))
      (args : List String), (main noconv self opts args ex_differ).world.overrun = false) ∧
    (∀ imd idata, ex_differ.fs (ex_differ.resolve "s") = some (.reg imd idata) →
      ∃ ibf xi w1, load "s" (4 + 1 : Int).toNat (4 + 1) true ex_differ = .ret (ibf, xi) w1 ∧
        w1.overrun = false ∧ 0 ≤ xi ∧ xi ≤ 4 ∧ (ibf.length : Int) ≤ 4 + 1 ∧
        xi ≤ ibf.length ∧
        ∀ omd odata, w1.fs (w1.resolve "d") = some (.reg omd odata) →
          ∃ obf xo w2, load "d" (4 : Int).toNat 4 false w1 = .ret (obf, xo) w2 ∧
            w2.overrun = false ∧ 0 ≤ xo ∧ xo ≤ 4 ∧ xo = obf.length) ∧
    (ex_five.overrun = false ∧ (lazy 2 "s" "d" ex_five).world.overrun = true) :=
  lazy_buffer_safety 4 (by decide) "s" "d" ex_differ rfl

/-- C19 (the length-mismatch branch is unreachable): for every cutoff in
[4, 131072], a source that is not empty and a regular destination whose
size is the size of the source, or is the cutoff while the source is
longer, the length `load` returns for the source and the length it
returns for the destination are both the smaller of the source size and
the cutoff; so the branch `xi != xo` is not taken and `lazy` returns 0
when `memcmp` finds the two prefixes equal and calls `output` when it
does not. -/
theorem lazy_lengths_agree (BF : Int) (hBF : 4 ≤ BF ∧ BF ≤ 131072) (ifn ofn : String)
    (w : World) (imd omd : Nat) (idata odata : List Byte)
    (hs : w.fs (w.resolve ifn) = some (.reg imd idata)) (hd : w.fs (w.resolve ofn) = some (.reg omd odata))
    (hpos : 0 < idata.length)
    (hcmp : (odata.length : Int) = idata.length ∨
      ((odata.length : Int) = BF ∧ BF < idata.length)) :
    ∃ ibf obf w1 w2,
      load ifn (BF + 1).toNat (BF + 1) true w = .ret (ibf, min (idata.length : Int) BF) w1 ∧
      load ofn BF.toNat BF false w1 = .ret (obf, min (idata.length : Int) BF) w2 ∧
      lazy BF ifn ofn w =
        if memcmp ibf obf (min (idata.length : Int) BF).toNat = 0 then .ret 0 w2
        else output ibf (min (idata.length : Int) BF) ofn (imd &&& ACCESSPERMS) w2 := by
  obtain ⟨hlo, hhi⟩ := hBF
  lift BF to ℕ using (by omega)
  have hne : idata ≠ [] := List.length_pos.mp hpos
  have key : ∀ (ibf : List Byte) (w1 : World),
      load ifn ((BF : Int) + 1).toNat ((BF : Int) + 1) true w = .ret (ibf, min (idata.length : Int) (BF : Int)) w1 →
      w1.fs (w1.resolve ofn) = some (.reg omd odata) →
      (min (idata.length : Int) (BF : Int)).toNat ≤ ibf.length →
      ∃ ibf obf w1 w2,
        load ifn ((BF : Int) + 1).toNat ((BF : Int) + 1) true w = .ret (ibf, min (idata.length : Int) (BF : Int)) w1 ∧
        load ofn (BF : Int).toNat (BF : Int) false w1 = .ret (obf, min (idata.length : Int) (BF : Int)) w2 ∧
        lazy (BF : Int) ifn ofn w =
          if memcmp ibf obf (min (idata.length : Int) (BF : Int)).toNat = 0 then .ret 0 w2
          else output ibf (min (idata.length : Int) (BF : Int)) ofn (imd &&& ACCESSPERMS) w2 := by
    intro ibf w1 hl hd1 hib
    have hxo : (((odata.take BF).length : Nat) : Int) = min (idata.length : Int) (BF : Int) := by
      simp only [List.length_take]
      omega
    have hl2 := load_dst BF hd1
    rw [hxo] at hl2
    refine ⟨ibf, _, w1, _, hl, hl2, ?_⟩
    have hin : (0 : Int) ≤ min (idata.length : Int) (BF : Int) ∧
        (min (idata.length : Int) (BF : Int)).toNat ≤ ibf.length ∧
        (min (idata.length : Int) (BF : Int)).toNat ≤ (odata.take BF).length := by
      refine ⟨by omega, hib, ?_⟩
      simp only [List.length_take]
      omega
    rw [lazy_nonempty (BF : Int) hs hne (lazy_o_size_reg hd) hl, if_pos hcmp, bind_apply, hl2]
    simp only [if_true, bind_apply, memcmp_call_pos _ _ _ hin]
    split <;> rfl
  by_cases hlen : BF < idata.length
  · have hl := load_src_long BF (by omega) hs hlen
    have hmin : min (idata.length : Int) (BF : Int) = (BF : Int) := by omega
    exact key (idata.take (BF - 3) ++ ELLIPSIS)
      { w with trace := w.trace ++ [.load ifn ((BF : Int) + 1) true] }
      (by rw [hmin]; exact hl) hd
      (by rw [hmin]
          simp only [Int.toNat_ofNat, List.length_append, List.length_take, ELLIPSIS,
            List.length_cons, List.length_nil]
          omega)
  · have hl := load_src_short BF hs (by omega)
    have hmin : min (idata.length : Int) (BF : Int) = (idata.length : Int) := by omega
    exact key idata { w with trace := w.trace ++ [.load ifn ((BF : Int) + 1) true] }
      (by rw [hmin]; exact hl) hd (by rw [hmin]; simp)

theorem lazy_lengths_agree_witness :
    ∃ ibf obf w1 w2,
      load "s" (4 + 1 : Int).toNat (4 + 1) true ex_differ
        = .ret (ibf, min ((([7, 7, 7, 7, 7, 7, 7, 7, 7, 7] : List Byte).length : Nat) : Int) 4)
            w1 ∧
      load "d" (4 : Int).toNat 4 false w1
        = .ret (obf, min ((([7, 7, 7, 7, 7, 7, 7, 7, 7, 7] : List Byte).length : Nat) : Int) 4)
            w2 ∧
      lazy 4 "s" "d" ex_differ =
        if memcmp ibf obf
            (min ((([7, 7, 7, 7, 7, 7, 7, 7, 7, 7] : List Byte).length : Nat) : Int) 4).toNat = 0
        then .ret 0 w2
        else output ibf
          (min ((([7, 7, 7, 7, 7, 7, 7, 7, 7, 7] : List Byte).length : Nat) : Int) 4) "d"
          (0o644 &&& ACCESSPERMS) w2 :=
  lazy_lengths_agree 4 (by decide) "s" "d" ex_differ 0o644 0o644
    [7, 7, 7, 7, 7, 7, 7, 7, 7, 7] [7, 7, 7, 7, 7, 7, 7, 7, 7, 8] rfl rfl (by decide)
    (Or.inl (by decide))

end Lazymove
